import Mathlib

/-!
Verification development for the youtube-notes-pro transcript pipeline
(`supabase/functions/generate-notes/index.ts`).

The TypeScript source is shallowly embedded here.  JavaScript strings are
modelled as `List Char` (code points; the UTF-16 length of a JS string and the
code-point length agree on all inputs appearing in the statements below, which
never use astral-plane characters).  JavaScript numbers that carry caption
timings are modelled as `ℚ` (the source only adds and compares them; `NaN` and
`Infinity` never arise from the rational model and are noted where the source
could produce them).  Fallible host calls (`fetch`, `JSON.parse`) are modelled
by explicit inputs (`HttpResp` records) and `Option`/`Except` results.
-/

set_option maxRecDepth 100000

namespace GN

attribute [local semireducible] Rat.add Rat.mul Rat.inv Rat.ofScientific Rat.sub

/-- JS strings, modelled as lists of characters. -/
abbrev Chars := List Char

/-- The character class of the regex `\s` and of `String.prototype.trim`,
restricted to the ASCII whitespace the pipeline can actually meet
(space, tab, line feed, carriage return, vertical tab, form feed). -/
def isJsWs (c : Char) : Bool :=
  c == ' ' || c == '\t' || c == '\n' || c == '\r' || c == '\x0b' || c == '\x0c'

/-- Drop trailing characters satisfying `p` (helper for `jsTrim`). -/
def dropEndWhile (p : Char → Bool) (s : Chars) : Chars :=
  (s.reverse.dropWhile p).reverse

/-- `String.prototype.trim()`: strip leading and trailing whitespace. -/
def jsTrim (s : Chars) : Chars :=
  dropEndWhile isJsWs (s.dropWhile isJsWs)

/-- The scan behind `replace(/\s+/g, " ")`: every maximal whitespace run
becomes a single space.  `inRun` records whether the previous character was
whitespace (so the space for the run has already been emitted). -/
def collapseRunsAux : Bool → Chars → Chars
  | _, [] => []
  | inRun, c :: rest =>
    if isJsWs c then
      if inRun then collapseRunsAux true rest
      else ' ' :: collapseRunsAux true rest
    else c :: collapseRunsAux false rest

/-- `input.replace(/\s+/g, " ")`. -/
def collapseRuns (s : Chars) : Chars := collapseRunsAux false s

/-- `input.replace(/\s+/g, " ").trim()`, the normalisation used for the
transcript override and for XML text payloads. -/
def collapseWs (s : Chars) : Chars :=
  jsTrim (collapseRuns s)

/-- Decimal digit character of `d` (defined by cases so that proofs can
`decide` on each digit). -/
def digitOf (d : Nat) : Char :=
  match d with
  | 0 => '0' | 1 => '1' | 2 => '2' | 3 => '3' | 4 => '4'
  | 5 => '5' | 6 => '6' | 7 => '7' | 8 => '8' | _ => '9'

/-- Numeric value of a decimal digit character. -/
def digitValOf (c : Char) : Nat := c.toNat - 48

/-- Numeric value of a digit run. -/
def digitsVal (ds : Chars) : Nat := ds.foldl (fun a c => 10 * a + digitValOf c) 0

/-- Decimal digits of `n`, most significant first, pushed onto `acc`; the
fuel argument is structural so that concrete values kernel-reduce, and any
fuel above `n` gives the exact digits (`natCharsFuel_stable`). -/
def natCharsFuel : Nat → Nat → Chars → Chars
  | 0, n, acc => digitOf n :: acc
  | f + 1, n, acc =>
    if n < 10 then digitOf n :: acc
    else natCharsFuel f (n / 10) (digitOf (n % 10) :: acc)

/-- Decimal digit characters of `n`, most significant first (the rendering of
`Number.prototype.toString` for non-negative integers). -/
def natChars (n : Nat) : Chars := natCharsFuel n n []

/-- `Number.prototype.toString` for an integer-valued JS number. -/
def intChars (i : Int) : Chars :=
  if i < 0 then '-' :: natChars i.natAbs else natChars i.natAbs

/-- `String.prototype.padStart(2, "0")`. -/
def padStart2 (s : Chars) : Chars :=
  if 2 ≤ s.length then s else List.replicate (2 - s.length) '0' ++ s

/-- `Math.floor` on the rational model of a JS number. -/
def jsFloor (q : ℚ) : Int := q.floor

/-- Embed an integer into `ℚ` (kept as an explicit `Rat.divInt` so that
concrete witnesses evaluate by kernel reduction). -/
def qOfInt (i : Int) : ℚ := Rat.divInt i 1

/-- The JS remainder operator `%` (sign of the dividend, truncated division). -/
def jsRem (a b : ℚ) : ℚ :=
  a - b * qOfInt (if a / b < 0 then (a / b).ceil else (a / b).floor)

/-- `formatTimestamp(seconds)` from the source: `h:mm:ss` when at least one
hour, otherwise `m:ss`, with two-digit padded minutes/seconds fields. -/
def formatTimestamp (seconds : ℚ) : Chars :=
  let hours : Int := jsFloor (seconds / 3600)
  let minutes : Int := jsFloor (jsRem seconds 3600 / 60)
  let secs : Int := jsFloor (jsRem seconds 60)
  if 0 < hours then
    intChars hours ++ ':' :: (padStart2 (intChars minutes) ++ ':' :: padStart2 (intChars secs))
  else
    intChars minutes ++ ':' :: padStart2 (intChars secs)

/-- One caption cue (`TranscriptSegment` in the source). -/
structure TranscriptSegment where
  text : Chars
  start : ℚ
  duration : ℚ
deriving DecidableEq

/-- The literal string `"Unknown"`. -/
def sUnknown : Chars := "Unknown".data

/-- `computeDurationFromSegments`: greatest `start + duration` (clamped below
by the `0` initialiser), formatted; `"Unknown"` for no segments or a
non-positive maximum.  (`Number.isFinite` is always true in the rational
model; the `s.start || 0` coercions are the identity on rationals.) -/
def computeDurationFromSegments (segments : List TranscriptSegment) : Chars :=
  if segments.length = 0 then sUnknown
  else
    let maxEnd : ℚ := segments.foldl
      (fun m s => if m < s.start + s.duration then s.start + s.duration else m) 0
    if maxEnd ≤ 0 then sUnknown else formatTimestamp maxEnd

/-- `splitIntoChunks(text, maxChars, maxChunks)`.  The source loop
(`while i < text.length && chunks.length < maxChunks`) pushes
`text.slice(i, i + maxChars)` and advances `i` by `maxChars`; the recursion
below takes the same chunks in the same order, including the `maxChars = 0`
corner where the loop pushes `maxChunks` empty slices. -/
def splitIntoChunks (text : Chars) (maxChars maxChunks : Nat) : List Chars :=
  match maxChunks, text with
  | 0, _ => []
  | _ + 1, [] => []
  | k + 1, c :: rest =>
    (c :: rest).take maxChars :: splitIntoChunks ((c :: rest).drop maxChars) maxChars k

/-- `Array.prototype.join(" ")`. -/
def joinSpace (parts : List Chars) : Chars :=
  List.intercalate [' '] parts

/-- `Array.prototype.join("\n")`. -/
def joinNewline (parts : List Chars) : Chars :=
  List.intercalate ['\n'] parts

/-- Consecutive groups of `g` elements, with structural fuel (any fuel above
the list length is enough, since every group consumes at least one element). -/
def groupsOfFuel : Nat → Nat → List α → List (List α)
  | 0, _, _ => []
  | _ + 1, _, [] => []
  | _ + 1, 0, _ :: _ => []
  | f + 1, n + 1, x :: rest =>
    (x :: rest).take (n + 1) :: groupsOfFuel f (n + 1) ((x :: rest).drop (n + 1))

/-- Consecutive groups of `g` elements (the `for (i += groupSize)` loop of
`buildTimestampedTranscript`; with `g = 0` the source would not terminate,
the function is only ever called with `g = 12`). -/
def groupsOf (g : Nat) (l : List α) : List (List α) :=
  groupsOfFuel l.length g l

/-- `buildTimestampedTranscript(segments, groupSize)`: one
`[timestamp] text` block per group of `groupSize` cues, blocks with empty
joined text skipped, joined by newlines. -/
def buildTimestampedTranscript (segments : List TranscriptSegment) (groupSize : Nat) : Chars :=
  let blocks := (groupsOf groupSize segments).filterMap fun group =>
    match group with
    | [] => none
    | s0 :: _ =>
      let text := collapseWs (joinSpace (group.map TranscriptSegment.text))
      if text = [] then none
      else some ('[' :: (formatTimestamp s0.start ++ ']' :: ' ' :: text))
  joinNewline blocks

/-- The offset filter in `serve` (lines 938–944): with a positive start
offset and a non-empty segment list, keep the segments starting at or after
the offset together with their re-joined text, unless that filter would be
empty, in which case the original pair is kept unchanged. -/
def applyStartOffset (startSeconds : ℚ) (segments : List TranscriptSegment)
    (transcript : Chars) : List TranscriptSegment × Chars :=
  if 0 < startSeconds ∧ segments.length ≠ 0 then
    let filtered := segments.filter fun s => startSeconds ≤ s.start
    if filtered.length ≠ 0 then
      (filtered, joinSpace (filtered.map TranscriptSegment.text))
    else (segments, transcript)
  else (segments, transcript)

/-- One generator call of the synthesis phase. -/
inductive GenCall where
  | chunkSummary : GenCall
  | synthesis : GenCall
deriving DecidableEq

/-- `DIRECT_MAX_CHARS` from `serve`. -/
def DIRECT_MAX_CHARS : Nat := 24000

/-- `CHUNK_CHARS` from `serve`. -/
def CHUNK_CHARS : Nat := 18000

/-- `MAX_CHUNKS` from `serve`. -/
def MAX_CHUNKS : Nat := 6

/-- The sequence of generator calls `serve` issues on its success path: a
single synthesis call in direct mode, otherwise one `callAiChunkSummary`
call per chunk (issued sequentially) followed by the final `callAiNotes`
synthesis call. -/
def generatorCallPlan (timestampedTranscript : Chars) : List GenCall :=
  if timestampedTranscript.length ≤ DIRECT_MAX_CHARS then [GenCall.synthesis]
  else
    (splitIntoChunks timestampedTranscript CHUNK_CHARS MAX_CHUNKS).map
      (fun _ => GenCall.chunkSummary) ++ [GenCall.synthesis]

/-! ### JSON values and the `JSON.parse` / `JSON.stringify` model

JSON numbers are modelled as integers (every JSON value the claims touch has
integer numbers; fractional and exponent syntax is outside the model and the
model parser rejects it, where `JSON.parse` would accept it).  Objects are
modelled as the member list in textual order; `JSON.parse` collapses duplicate
keys last-wins, so field lookup (`jsonGet`) takes the last match. -/

inductive Json where
  | null : Json
  | bool : Bool → Json
  | num : Int → Json
  | str : Chars → Json
  | arr : List Json → Json
  | obj : List (Chars × Json) → Json

/-- The keyword characters of `null`. -/
def kwNull : Chars := ['n', 'u', 'l', 'l']

/-- The keyword characters of `true`. -/
def kwTrue : Chars := ['t', 'r', 'u', 'e']

/-- The keyword characters of `false`. -/
def kwFalse : Chars := ['f', 'a', 'l', 's', 'e']

/-- `JSON.stringify` escaping of one string character (double quote,
backslash, and control characters; everything else is itself). -/
def escapeJsonChar (c : Char) : Chars :=
  if c = '"' then ['\\', '"']
  else if c = '\\' then ['\\', '\\']
  else if c = '\x08' then ['\\', 'b']
  else if c = '\x0c' then ['\\', 'f']
  else if c = '\n' then ['\\', 'n']
  else if c = '\r' then ['\\', 'r']
  else if c = '\t' then ['\\', 't']
  else if c.toNat < 32 then
    ['\\', 'u', '0', '0', digitOf (c.toNat / 16), digitOf (c.toNat % 16)]
  else [c]

/-- A serialized string literal: quote, escaped body, quote. -/
def serStr (s : Chars) : Chars :=
  '"' :: (s.flatMap escapeJsonChar ++ ['"'])

mutual
/-- `JSON.stringify` (no spacing argument, as called by the source). -/
def serJson : Json → Chars
  | .null => kwNull
  | .bool true => kwTrue
  | .bool false => kwFalse
  | .num i => intChars i
  | .str s => serStr s
  | .arr xs => '[' :: (serItems xs ++ [']'])
  | .obj fs => '{' :: (serFields fs ++ ['}'])

/-- Comma-separated serialized array items. -/
def serItems : List Json → Chars
  | [] => []
  | [x] => serJson x
  | x :: y :: rest => serJson x ++ ',' :: serItems (y :: rest)

/-- Comma-separated serialized object members (`"key":value`). -/
def serFields : List (Chars × Json) → Chars
  | [] => []
  | [(k, v)] => serStr k ++ ':' :: serJson v
  | (k, v) :: f :: rest => serStr k ++ ':' :: serJson v ++ ',' :: serFields (f :: rest)
end

/-- The whitespace class of the JSON grammar (`JSON.parse`). -/
def isJsonWs (c : Char) : Bool :=
  c == ' ' || c == '\t' || c == '\n' || c == '\r'

/-- Skip JSON whitespace. -/
def skipJsonWs (cs : Chars) : Chars := cs.dropWhile isJsonWs

/-- ASCII decimal digit test. -/
def isDigitCh (c : Char) : Bool := '0' ≤ c && c ≤ '9'

/-- Does `pre` occur at the start of `s`? -/
def listStartsWith : Chars → Chars → Bool
  | [], _ => true
  | _ :: _, [] => false
  | p :: ps, c :: cs => p == c && listStartsWith ps cs

/-- Hexadecimal digit value, for `\uXXXX` escapes. -/
def hexDigitVal (c : Char) : Option Nat :=
  if '0' ≤ c && c ≤ '9' then some (c.toNat - 48)
  else if 'a' ≤ c && c ≤ 'f' then some (c.toNat - 87)
  else if 'A' ≤ c && c ≤ 'F' then some (c.toNat - 55)
  else none

/-- One escaped character (after the backslash) of a JSON string literal. -/
def unescapeJsonChar (e : Char) : Option Char :=
  if e = '"' then some '"'
  else if e = '\\' then some '\\'
  else if e = '/' then some '/'
  else if e = 'b' then some '\x08'
  else if e = 'f' then some '\x0c'
  else if e = 'n' then some '\n'
  else if e = 'r' then some '\r'
  else if e = 't' then some '\t'
  else none

/-- Body of a JSON string literal, after the opening quote.  Handles the
standard escapes; a `\uXXXX` escape becomes the corresponding code point
(lone surrogates, which Lean `Char` cannot carry, are not modelled).
Unescaped control characters are rejected, as in `JSON.parse`. -/
def parseJsonStr : Chars → Option (Chars × Chars)
  | [] => none
  | c :: rest =>
    if c = '"' then some ([], rest)
    else if c = '\\' then
      match rest with
      | 'u' :: a :: b :: c2 :: d :: rest2 => do
        let va ← hexDigitVal a
        let vb ← hexDigitVal b
        let vc ← hexDigitVal c2
        let vd ← hexDigitVal d
        let (s, r) ← parseJsonStr rest2
        some (Char.ofNat (((va * 16 + vb) * 16 + vc) * 16 + vd) :: s, r)
      | e :: rest2 => do
        let ch ← unescapeJsonChar e
        let (s, r) ← parseJsonStr rest2
        some (ch :: s, r)
      | [] => none
    else if c.toNat < 32 then none
    else (parseJsonStr rest).map fun p => (c :: p.1, p.2)

/-- A nonempty run of decimal digits and its value. -/
def parseDigits (cs : Chars) : Option (Nat × Chars) :=
  if cs.takeWhile isDigitCh = [] then none
  else some (digitsVal (cs.takeWhile isDigitCh), cs.dropWhile isDigitCh)

/-- A JSON number restricted to the integer grammar of the model (optional
minus sign, digit run; fraction/exponent syntax is out of model scope). -/
def parseJsonNum (cs : Chars) : Option (Json × Chars) :=
  if cs.head? = some '-' then
    (parseDigits cs.tail).map fun p => (Json.num (-(p.1 : Int)), p.2)
  else (parseDigits cs).map fun p => (Json.num (p.1 : Int), p.2)

mutual
/-- One JSON value, by recursion on fuel (any fuel above the input length is
enough; `jsonParse` supplies it). -/
def parseJsonVal : Nat → Chars → Option (Json × Chars)
  | 0, _ => none
  | f + 1, cs =>
    match skipJsonWs cs with
    | [] => none
    | c :: rest =>
      if c = '"' then (parseJsonStr rest).map fun p => (Json.str p.1, p.2)
      else if c = '[' then
        match skipJsonWs rest with
        | ']' :: r2 => some (Json.arr [], r2)
        | r2 => (parseJsonItems f r2).map fun p => (Json.arr p.1, p.2)
      else if c = '{' then
        match skipJsonWs rest with
        | '}' :: r2 => some (Json.obj [], r2)
        | r2 => (parseJsonFields f r2).map fun p => (Json.obj p.1, p.2)
      else if listStartsWith kwTrue (c :: rest) then some (Json.bool true, rest.drop 3)
      else if listStartsWith kwFalse (c :: rest) then some (Json.bool false, rest.drop 4)
      else if listStartsWith kwNull (c :: rest) then some (Json.null, rest.drop 3)
      else if c = '-' || isDigitCh c then parseJsonNum (c :: rest)
      else none

/-- One-or-more comma-separated array items up to the closing bracket. -/
def parseJsonItems : Nat → Chars → Option (List Json × Chars)
  | 0, _ => none
  | f + 1, cs => do
    let (v, r) ← parseJsonVal f cs
    match skipJsonWs r with
    | ',' :: r2 => do
      let (vs, r3) ← parseJsonItems f r2
      some (v :: vs, r3)
    | ']' :: r2 => some ([v], r2)
    | _ => none

/-- One-or-more comma-separated object members up to the closing brace. -/
def parseJsonFields : Nat → Chars → Option (List (Chars × Json) × Chars)
  | 0, _ => none
  | f + 1, cs =>
    match skipJsonWs cs with
    | '"' :: r => do
      let (k, r1) ← parseJsonStr r
      match skipJsonWs r1 with
      | ':' :: r2 => do
        let (v, r3) ← parseJsonVal f r2
        match skipJsonWs r3 with
        | ',' :: r4 => do
          let (fs, r5) ← parseJsonFields f r4
          some ((k, v) :: fs, r5)
        | '}' :: r4 => some ([(k, v)], r4)
        | _ => none
      | _ => none
    | _ => none
end

/-- The model of `JSON.parse`: parse one value, require only whitespace after
it; `none` models the thrown `SyntaxError`. -/
def jsonParse (s : Chars) : Option Json :=
  match parseJsonVal (s.length + 1) s with
  | some (v, rest) => if skipJsonWs rest = [] then some v else none
  | none => none

/-- Field access on a parsed JSON object (`undefined` on anything else);
duplicate keys resolve last-wins as in a JS object built by `JSON.parse`. -/
def jsonGet (j : Json) (key : Chars) : Option Json :=
  match j with
  | .obj fs => (fs.reverse.find? fun kv => kv.1 == key).map Prod.snd
  | _ => none

/-- Element access `a?.[i]` on a parsed JSON array. -/
def jsonIdx (j : Json) (i : Nat) : Option Json :=
  match j with
  | .arr xs => xs.get? i
  | _ => none

/-! ### Lenient JSON extraction (`extractJsonFromText`, `parseJsonLenient`) -/

/-- Index of the first occurrence of `pat` in `s` (the regex / `indexOf`
search position). -/
def findSub (pat : Chars) : Chars → Option Nat
  | [] => if pat = [] then some 0 else none
  | c :: rest =>
    if listStartsWith pat (c :: rest) then some 0
    else (findSub pat rest).map (· + 1)

/-- `String.prototype.toLowerCase` on the ASCII range (the only case mapping
the compared data can contain). -/
def jsToLower (c : Char) : Char :=
  if 65 ≤ c.toNat && c.toNat ≤ 90 then Char.ofNat (c.toNat + 32) else c

/-- Case-insensitive `findSub` (`pat` must already be lower-case). -/
def findSubCI (pat : Chars) (s : Chars) : Option Nat :=
  findSub pat (s.map jsToLower)

/-- Index of the first occurrence of character `c`. -/
def idxOfChar (c : Char) : Chars → Option Nat
  | [] => none
  | x :: rest => if x = c then some 0 else (idxOfChar c rest).map (· + 1)

/-- Index of the last occurrence of character `c` (`lastIndexOf`). -/
def lastIdxOfChar (c : Char) (s : Chars) : Option Nat :=
  (idxOfChar c s.reverse).map fun i => s.length - 1 - i

/-- The literal `"```json"` opening marker of a fenced code block. -/
def fenceOpen : Chars := "```json".data

/-- The literal `"```"` fence. -/
def fenceTicks : Chars := "```".data

/-- The capture group of `/```json\s*([\s\S]*?)\s*```/i` on `input`: the text
between the first (case-insensitive) `"```json"` marker and the next
`"```"`, stripped of surrounding whitespace (`none` when there is no such
pair).  The greedy leading `\s*` and the lazy body followed by `\s*` make the
group exactly the whitespace-trimmed enclosed text. -/
def fencedGroup (input : Chars) : Option Chars :=
  match findSubCI fenceOpen input with
  | none => none
  | some i =>
    let after := input.drop (i + 7)
    match findSub fenceTicks after with
    | none => none
    | some j => some (jsTrim (after.take j))

/-- The `input.slice(firstBrace, lastBrace + 1)` fallback of
`extractJsonFromText`, guarded by `firstBrace >= 0 && lastBrace > firstBrace`. -/
def braceSlice (input : Chars) : Option Chars :=
  match idxOfChar '{' input, lastIdxOfChar '}' input with
  | some fb, some lb =>
    if fb < lb then some ((input.drop fb).take (lb + 1 - fb)) else none
  | _, _ => none

/-- `extractJsonFromText` from the source: a non-empty fenced group wins
(`fenced?.[1]` is falsy when the captured group is empty, so an empty group
falls through); otherwise slice from the first `{` to the last `}`. -/
def extractJsonFromText (input : Chars) : Option Chars :=
  match fencedGroup input with
  | some g => if g = [] then braceSlice input else some (jsTrim g)
  | none => braceSlice input

/-- The global replace `raw.replace(/,\s*([}\])])/g, "$1")` that strips
trailing commas.  `pending` buffers a comma followed by whitespace whose
match is still undecided; scanning restarts inside a flushed buffer exactly
where the regex engine would (no other match can start inside it, since it
holds one leading comma and then only whitespace). -/
def removeTcAux : Chars → Chars → Chars
  | pending, [] => pending.reverse
  | pending, c :: rest =>
    match pending with
    | [] =>
      if c = ',' then removeTcAux [','] rest
      else c :: removeTcAux [] rest
    | p :: ps =>
      if c = '}' || c = ']' then c :: removeTcAux [] rest
      else if isJsWs c then removeTcAux (c :: p :: ps) rest
      else if c = ',' then (p :: ps).reverse ++ removeTcAux [','] rest
      else (p :: ps).reverse ++ c :: removeTcAux [] rest

/-- `raw.replace(/,\s*([}\])])/g, "$1")`. -/
def removeTrailingCommas (s : Chars) : Chars := removeTcAux [] s

/-- `parseJsonLenient` from the source: extract (or fall back to the whole
input), try a strict parse, then retry once with trailing commas removed;
`none` models the final uncaught `SyntaxError`. -/
def parseJsonLenient (input : Chars) : Option Json :=
  let raw := (extractJsonFromText input).getD input
  match jsonParse raw with
  | some v => some v
  | none => jsonParse (removeTrailingCommas raw)

/-! ### Timed-text XML parsing -/

/-- Global literal replacement (`String.prototype.replace` with a `g` regex
of a literal pattern): left-to-right, non-overlapping.  Structural fuel; any
fuel at or above the input length is enough because every step consumes at
least one character (all patterns used are non-empty). -/
def replaceAllFuel (pat repl : Chars) : Nat → Chars → Chars
  | 0, s => s
  | f + 1, s =>
    match s with
    | [] => []
    | c :: rest =>
      if listStartsWith pat (c :: rest) then
        repl ++ replaceAllFuel pat repl f ((c :: rest).drop pat.length)
      else c :: replaceAllFuel pat repl f rest

/-- `s.replace(new RegExp(escape(pat), "g"), repl)` for a literal `pat`. -/
def replaceAll (pat repl s : Chars) : Chars := replaceAllFuel pat repl s.length s

/-- The numeric-entity replacement `s.replace(/&#(\d+);/g, fromCharCode)`.
`String.fromCharCode` truncates to a UTF-16 code unit (`% 65536`); a code
unit in the surrogate range is not a Lean `Char` and degrades to `'\0'`
(`Char.ofNat`), and the `Number.isFinite` guard for astronomically long digit
runs is not modelled — no claim depends on either corner. -/
def numEntityFuel : Nat → Chars → Chars
  | 0, s => s
  | f + 1, s =>
    match s with
    | [] => []
    | '&' :: '#' :: rest =>
      let ds := rest.takeWhile isDigitCh
      if ds = [] then '&' :: numEntityFuel f ('#' :: rest)
      else
        match rest.dropWhile isDigitCh with
        | ';' :: rest2 => Char.ofNat (digitsVal ds % 65536) :: numEntityFuel f rest2
        | _ => '&' :: numEntityFuel f ('#' :: rest)
    | c :: rest => c :: numEntityFuel f rest

/-- `decodeXmlEntities` from the source: the five named entities and literal
newlines (in source order, so double-encoded entities decode twice), then
numeric entities, then whitespace collapse and trim. -/
def decodeXmlEntities (input : Chars) : Chars :=
  let s1 := replaceAll "&amp;".data "&".data input
  let s2 := replaceAll "&quot;".data "\"".data s1
  let s3 := replaceAll "&#39;".data "\x27".data s2
  let s4 := replaceAll "&lt;".data "<".data s3
  let s5 := replaceAll "&gt;".data ">".data s4
  let s6 := replaceAll "\n".data " ".data s5
  collapseWs (numEntityFuel s6.length s6)

/-- The `\w` character class. -/
def isWordCh (c : Char) : Bool :=
  ('a' ≤ c && c ≤ 'z') || ('A' ≤ c && c ≤ 'Z') || isDigitCh c || c == '_'

/-- `parseAttributes` from the source: every `/(\w+)="([^"]*)"/g` match, in
order.  (The source stores matches into an object, so duplicate names
overwrite; lookups below therefore take the last match.) -/
def parseAttrsFuel : Nat → Chars → List (Chars × Chars)
  | 0, _ => []
  | f + 1, s =>
    match s with
    | [] => []
    | c :: rest =>
      let name := (c :: rest).takeWhile isWordCh
      if name = [] then parseAttrsFuel f rest
      else
        match (c :: rest).dropWhile isWordCh with
        | '=' :: '"' :: vrest =>
          let v := vrest.takeWhile (fun x => !(x == '"'))
          match vrest.dropWhile (fun x => !(x == '"')) with
          | '"' :: rest2 => (name, v) :: parseAttrsFuel f rest2
          | _ => []
        | _ => parseAttrsFuel f rest

/-- `parseAttributes`, with the fuel instantiated. -/
def parseAttributes (attrString : Chars) : List (Chars × Chars) :=
  parseAttrsFuel attrString.length attrString

/-- Attribute lookup (last match wins, as in the source's object writes). -/
def attrGet (attrs : List (Chars × Chars)) (name : Chars) : Option Chars :=
  (attrs.reverse.find? fun kv => kv.1 == name).map Prod.snd

/-- `Number(·)` on an attribute string, in the rational model: optional
sign, digits, optional decimal fraction.  `NaN` (any other shape) and the
exponent/hex forms are modelled as `0`; no claim depends on the numeric
value of a malformed attribute. -/
def jsNumber (s : Chars) : ℚ :=
  let t := jsTrim s
  if t = [] then 0
  else
    let signNeg := match t with | '-' :: _ => true | _ => false
    let t1 := match t with | '-' :: r => r | '+' :: r => r | _ => t
    let ip := t1.takeWhile isDigitCh
    let t2 := t1.dropWhile isDigitCh
    let build : Nat → Nat → Nat → ℚ := fun ipv fpv k =>
      let mag := Rat.divInt (Int.ofNat (ipv * 10 ^ k + fpv)) (Int.ofNat (10 ^ k))
      if signNeg then -mag else mag
    match t2 with
    | [] => if ip = [] then 0 else build (digitsVal ip) 0 0
    | '.' :: t3 =>
      let fp := t3.takeWhile isDigitCh
      if t3.dropWhile isDigitCh ≠ [] then 0
      else if ip = [] && fp = [] then 0
      else build (digitsVal ip) (digitsVal fp) fp.length
    | _ => 0

/-- The attribute value `attrs.x || 0` feeding `Number(...)`: a missing or
empty attribute gives `0`. -/
def attrNumber (attrs : List (Chars × Chars)) (name : Chars) : ℚ :=
  match attrGet attrs name with
  | none => 0
  | some v => if v = [] then 0 else jsNumber v

/-- One `parseTimedTextXml` result. -/
structure ParsedTimedText where
  transcript : Chars
  segments : List TranscriptSegment
deriving DecidableEq

/-- The `/<text\b([^>]*)>([\s\S]*?)<\/text>/g` scan of `parseTimedTextXml`:
each match contributes one segment unless its decoded text is empty.
Structural fuel; the input length is enough since every step consumes at
least one character. -/
def timedTextScan : Nat → Chars → List TranscriptSegment
  | 0, _ => []
  | f + 1, s =>
    match s with
    | [] => []
    | c :: rest =>
      if listStartsWith "<text".data (c :: rest)
          && (match (c :: rest).drop 5 with
              | [] => true
              | b :: _ => !isWordCh b) then
        let afterTag := (c :: rest).drop 5
        let attrRun := afterTag.takeWhile (fun x => !(x == '>'))
        match afterTag.dropWhile (fun x => !(x == '>')) with
        | '>' :: bodyStart =>
          (match findSub "</text>".data bodyStart with
          | some k =>
            let attrs := parseAttributes attrRun
            let text := decodeXmlEntities (bodyStart.take k)
            let tail := timedTextScan f (bodyStart.drop (k + 7))
            if text = [] then tail
            else ⟨text, attrNumber attrs "start".data, attrNumber attrs "dur".data⟩ :: tail
          | none => [])
        | _ => []
      else timedTextScan f rest

/-- `parseTimedTextXml` from the source.  The accumulated `full` string is
each kept text followed by a space, trimmed at the end, which is exactly the
texts joined by single spaces. -/
def parseTimedTextXml (xml : Chars) : ParsedTimedText :=
  let segments := timedTextScan xml.length xml
  ⟨jsTrim ((segments.map fun s => s.text ++ [' ']).flatten), segments⟩

/-! ### Transcript fetch strategies

Each network call in the source goes through `fetchWithRetry`, whose retry
loop only re-issues the same request; the embedding models each call by the
`HttpResp` it finally returns (status, `res.ok`, body text).  An environment
record lists those responses in the order the strategy issues its requests;
quantifying over environments quantifies over every upstream behaviour. -/

/-- One settled HTTP response. -/
structure HttpResp where
  ok : Bool
  status : Nat
  body : Chars
deriving DecidableEq

/-- Transcript provenance (`TranscriptResult.source`). -/
inductive Source where
  | cache : Source
  | timedtext : Source
  | timedtextList : Source
  | watch : Source
  | innertube : Source
  | override : Source
deriving DecidableEq

/-- `TranscriptResult` from the source. -/
structure TranscriptResult where
  transcript : Chars
  segments : List TranscriptSegment
  lang : Option Chars
  source : Source
  usedCache : Bool
deriving DecidableEq

/-- The acceptance gate shared by all three fetch strategies. -/
def usableParse (p : ParsedTimedText) : Bool :=
  decide (10 < p.segments.length) && decide (200 < p.transcript.length)

/-- The literal language code `"en"`. -/
def langEn : Chars := "en".data

/-- The loop body of `tryTimedTextDirect` over its base-times-attempt
requests (every attempt requests `lang: "en"`): skip any response that is
not ok or shorter than 20 characters, accept the first parse that passes the
`> 10` segments and `> 200` characters gate. -/
def tryTimedTextDirectAux : List HttpResp → Option TranscriptResult
  | [] => none
  | r :: rest =>
    if !r.ok || decide (r.body.length < 20) then tryTimedTextDirectAux rest
    else if usableParse (parseTimedTextXml r.body) then
      some ⟨(parseTimedTextXml r.body).transcript, (parseTimedTextXml r.body).segments,
        some langEn, Source.timedtext, false⟩
    else tryTimedTextDirectAux rest

/-- `tryTimedTextDirect`: two endpoint hosts times four language/kind/format
attempts give eight requests; `resps` lists their responses in loop order. -/
def tryTimedTextDirect (resps : List HttpResp) : Option TranscriptResult :=
  tryTimedTextDirectAux (resps.take 8)

/-- One `<track .../>` entry from the caption track list. -/
structure CaptionTrackMeta where
  lang : Chars
  name : Option Chars
  kind : Option Chars
deriving DecidableEq

/-- The `/<track\b([^/>]*)\/>/g` scan of `listCaptionTracks`: tracks whose
`lang_code || lang` attribute is empty are skipped; an empty `name` or
`kind` attribute is falsy and becomes absent; `name` is entity-decoded. -/
def trackScan : Nat → Chars → List CaptionTrackMeta
  | 0, _ => []
  | f + 1, s =>
    match s with
    | [] => []
    | c :: rest =>
      if listStartsWith "<track".data (c :: rest)
          && (match (c :: rest).drop 6 with
              | [] => true
              | b :: _ => !isWordCh b) then
        let attrRun := ((c :: rest).drop 6).takeWhile fun x => !(x == '/' || x == '>')
        match ((c :: rest).drop 6).dropWhile (fun x => !(x == '/' || x == '>')) with
        | '/' :: '>' :: rest2 =>
          let attrs := parseAttributes attrRun
          let lang := match attrGet attrs "lang_code".data with
            | some v => if v = [] then (attrGet attrs "lang".data).getD [] else v
            | none => (attrGet attrs "lang".data).getD []
          let tail := trackScan f rest2
          if lang = [] then tail
          else
            { lang := lang
              name := match attrGet attrs "name".data with
                | some v => if v = [] then none else some (decodeXmlEntities v)
                | none => none
              kind := match attrGet attrs "kind".data with
                | some v => if v = [] then none else some v
                | none => none } :: tail
        | _ => trackScan f rest
      else trackScan f rest

/-- `listCaptionTracks`: over the two list endpoints, skip not-ok or
too-short responses, return the first non-empty track list. -/
def listCaptionTracks : List HttpResp → List CaptionTrackMeta
  | [] => []
  | r :: rest =>
    if !r.ok || decide (r.body.length < 20) then listCaptionTracks rest
    else
      let tracks := trackScan r.body.length r.body
      if tracks = [] then listCaptionTracks rest else tracks

/-- `startsWith` after `toLowerCase`, the language preference test. -/
def langStartsWithEn (lang : Chars) : Bool :=
  listStartsWith langEn (lang.map jsToLower)

/-- The fetch loop of `tryTimedTextFromList` over the two caption hosts for
the preferred track. -/
def tryTimedTextFromListAux (preferredLang : Chars) : List HttpResp → Option TranscriptResult
  | [] => none
  | r :: rest =>
    if !r.ok || decide (r.body.length < 20) then tryTimedTextFromListAux preferredLang rest
    else if usableParse (parseTimedTextXml r.body) then
      some ⟨(parseTimedTextXml r.body).transcript, (parseTimedTextXml r.body).segments,
        some preferredLang, Source.timedtextList, false⟩
    else tryTimedTextFromListAux preferredLang rest

/-- `tryTimedTextFromList`: list the caption tracks (two list-endpoint
responses), prefer the first track whose language starts with `"en"`
(else the first track), then try the two caption hosts. -/
def tryTimedTextFromList (listResps fetchResps : List HttpResp) : Option TranscriptResult :=
  match listCaptionTracks (listResps.take 2) with
  | [] => none
  | t :: ts =>
    let preferred := ((t :: ts).find? fun tr => langStartsWithEn tr.lang).getD t
    tryTimedTextFromListAux preferred.lang (fetchResps.take 2)

/-! ### Watch-page / Innertube fallback -/

/-- The character scan of `extractBalancedJsonObjectAfterMarker`: starting
at a `{`, track depth, in-string and escape state exactly as the source
loop does (depth as an integer, since the source lets it go negative on
malformed input) and return the length up to and including the brace that
brings the depth to zero. -/
def balancedScanLen : Chars → Int → Bool → Bool → Nat → Option Nat
  | [], _, _, _, _ => none
  | ch :: rest, depth, inStr, esc, count =>
    if inStr then
      if esc then balancedScanLen rest depth true false (count + 1)
      else if ch = '\\' then balancedScanLen rest depth true true (count + 1)
      else if ch = '"' then balancedScanLen rest depth false esc (count + 1)
      else balancedScanLen rest depth true esc (count + 1)
    else if ch = '"' then balancedScanLen rest depth true esc (count + 1)
    else
      let d1 : Int := if ch = '{' then depth + 1 else depth
      if ch = '}' then
        if d1 - 1 = 0 then some (count + 1)
        else balancedScanLen rest (d1 - 1) inStr esc (count + 1)
      else balancedScanLen rest d1 inStr esc (count + 1)

/-- `extractBalancedJsonObjectAfterMarker(html, marker)`. -/
def extractBalancedJsonObjectAfterMarker (html marker : Chars) : Option Chars := do
  let idx ← findSub marker html
  let rel ← idxOfChar '{' (html.drop idx)
  let len ← balancedScanLen (html.drop (idx + rel)) 0 false false 0
  some ((html.drop (idx + rel)).take len)

/-- The scan of `extractQuotedValue(html, key)`, i.e. the first match of
`new RegExp("\"key\":\"([^\"]+)\"")`: on a failed capture (empty value or
missing closing quote) the engine moves one position forward. -/
def extractQuotedValueFuel (pat : Chars) : Nat → Chars → Option Chars
  | 0, _ => none
  | _ + 1, [] => none
  | f + 1, c :: rest =>
    if listStartsWith pat (c :: rest) then
      let vstart := (c :: rest).drop pat.length
      let v := vstart.takeWhile fun x => !(x == '"')
      match vstart.dropWhile (fun x => !(x == '"')) with
      | '"' :: _ => if v = [] then extractQuotedValueFuel pat f rest else some v
      | _ => extractQuotedValueFuel pat f rest
    else extractQuotedValueFuel pat f rest

/-- `extractQuotedValue(html, key)`. -/
def extractQuotedValue (html key : Chars) : Option Chars :=
  extractQuotedValueFuel ('"' :: (key ++ "\":\"".data)) html.length html

/-- The thrown message of `fetchWatchHtml` after all three candidate URLs
fail. -/
def watchFailMsg (lastStatus : Nat) : Chars :=
  "Failed to fetch usable watch page (last status ".data ++ natChars lastStatus ++ ")".data

/-- The loop of `fetchWatchHtml`, carrying `lastStatus`. -/
def fetchWatchHtmlAux : List HttpResp → Nat → Except Chars Chars
  | [], last => .error (watchFailMsg last)
  | r :: rest, _ =>
    if r.ok && ((findSub "ytInitialPlayerResponse".data r.body).isSome
        || (findSub "INNERTUBE_API_KEY".data r.body).isSome) then .ok r.body
    else fetchWatchHtmlAux rest r.status

/-- `fetchWatchHtml`: three candidate URLs, accept the first ok response
whose HTML mentions the player response or the Innertube key. -/
def fetchWatchHtml (resps : List HttpResp) : Except Chars Chars :=
  fetchWatchHtmlAux (resps.take 3) 0

/-- `playerResponse?.captions?.playerCaptionsTracklistRenderer?.captionTracks`
as a list.  A present value that is not a JSON array is folded into the
empty list: on such a value the source either treats `.length` as falsy (the
same branch) or throws a `TypeError` at `.find` which the orchestrator
catches into a null result, so no claim can distinguish the two. -/
def captionTracksOf (pr : Option Json) : List Json :=
  match (pr.bind fun p => jsonGet p "captions".data).bind
      (fun j => jsonGet j "playerCaptionsTracklistRenderer".data) |>.bind
      (fun j => jsonGet j "captionTracks".data) with
  | some (Json.arr xs) => xs
  | _ => []

/-- The thrown message of `fetchPlayerViaInnertube` on a non-ok response. -/
def innertubeFailMsg (status : Nat) : Chars :=
  "Innertube player request failed (".data ++ natChars status ++ ")".data

/-- The message of a rejected `res.json()`; the concrete host text is
engine-specific and no claim depends on it. -/
def jsonRejectMsg : Chars := "SyntaxError".data

/-- The watch-page / Innertube environment: the three watch-page responses,
the Innertube player response (only consulted when the embedded tracks are
missing and an API key is present) and the caption-track fetch response. -/
structure LegacyEnv where
  watchResps : List HttpResp
  innertubeResp : HttpResp
  trackResp : HttpResp
deriving DecidableEq

/-- A caption track's `languageCode`, when it is a string (a present
non-string value would make the source throw at `.toLowerCase()`, a path
folded into no-match here and not exercised by any claim). -/
def trackLanguageCode (track : Json) : Option Chars :=
  match jsonGet track "languageCode".data with
  | some (Json.str s) => some s
  | _ => none

/-- The English-preference predicate on a caption track. -/
def englishTrackPred (tr : Json) : Bool :=
  match trackLanguageCode tr with
  | some s => langStartsWithEn s
  | none => false

/-- `const selectedTrack = englishTrack || captionTracks[0]`. -/
def selectedTrackOf (t : Json) (ts : List Json) : Json :=
  ((t :: ts).find? englishTrackPred).getD t

/-- The tail of `tryTranscriptFromWatchOrInnertube` once the player response
is resolved: pick the caption track (preferring English), require a truthy
string `baseUrl`, fetch it and gate the parse. -/
def legacyAfterPlayer (env : LegacyEnv) (pr : Option Json) (usedInnertube : Bool) :
    Except Chars (Option TranscriptResult) :=
  match captionTracksOf pr with
  | [] => .ok none
  | t :: ts =>
    match jsonGet (selectedTrackOf t ts) "baseUrl".data with
    | some (Json.str u) =>
      if u = [] then .ok none
      else if !env.trackResp.ok then .ok none
      else if env.trackResp.body.length < 20 then .ok none
      else if usableParse (parseTimedTextXml env.trackResp.body) then
        .ok (some ⟨(parseTimedTextXml env.trackResp.body).transcript,
          (parseTimedTextXml env.trackResp.body).segments,
          trackLanguageCode (selectedTrackOf t ts),
          if usedInnertube then Source.innertube else Source.watch, false⟩)
      else .ok none
    | _ => .ok none

/-- `JSON.parse` applied to the brace-balanced `ytInitialPlayerResponse`
blob of the watch page (`null` on a missing blob or a parse error). -/
def playerFromHtml (html : Chars) : Option Json :=
  (extractBalancedJsonObjectAfterMarker html "ytInitialPlayerResponse".data).bind jsonParse

/-- The Innertube fallback of `tryTranscriptFromWatchOrInnertube`: when the
embedded caption tracks are missing and the page carries an API key, the
player response is re-fetched from the Innertube player endpoint (a non-ok
response or a body that fails `res.json()` throws); the boolean records
whether that call was made, which is exactly when the final
`captionTracks === embeddedTracks` reference equality fails.  The
`INNERTUBE_CONTEXT` and client-version extraction only shape the outbound
request, which the environment already abstracts into `innertubeResp`. -/
def resolvePlayer (env : LegacyEnv) (html : Chars) : Except Chars (Option Json × Bool) :=
  if (captionTracksOf (playerFromHtml html)).isEmpty then
    match extractQuotedValue html "INNERTUBE_API_KEY".data with
    | some _ =>
      if !env.innertubeResp.ok then .error (innertubeFailMsg env.innertubeResp.status)
      else
        match jsonParse env.innertubeResp.body with
        | some j => .ok (some j, true)
        | none => .error jsonRejectMsg
    | none => .ok (playerFromHtml html, false)
  else .ok (playerFromHtml html, false)

/-- `tryTranscriptFromWatchOrInnertube`: fetch the watch page, resolve the
player response (embedded or via Innertube), then run the gated tail. -/
def tryTranscriptFromWatchOrInnertube (env : LegacyEnv) :
    Except Chars (Option TranscriptResult) :=
  match fetchWatchHtml env.watchResps with
  | .error e => .error e
  | .ok html =>
    match resolvePlayer env html with
    | .error e => .error e
    | .ok (pr, usedInnertube) => legacyAfterPlayer env pr usedInnertube

/-! ### Cache and orchestrator -/

/-- One row of `video_transcripts_cache` as the query returns it.
`segmentsArr` is `none` when the stored `segments` column is not an array
(the `Array.isArray` guard then substitutes `[]`). -/
structure CacheRow where
  transcript : Chars
  segmentsArr : Option (List TranscriptSegment)
  lang : Option Chars
deriving DecidableEq

/-- `getCachedTranscript`: absent client, a query error, a missing row or a
falsy (empty) `transcript` column are all a miss. -/
def getCachedTranscript (adminOk : Bool) (queryError : Bool) (row : Option CacheRow) :
    Option TranscriptResult :=
  if !adminOk then none
  else if queryError then none
  else
    match row with
    | none => none
    | some r =>
      if r.transcript = [] then none
      else some ⟨r.transcript, r.segmentsArr.getD [], r.lang, Source.cache, true⟩

/-- The externally visible effects of `fetchTranscriptBestEffort`, in
program order (one entry per awaited call; the cache read entry covers the
`getCachedTranscript` call whether or not a client is configured, and
`cacheWrite` is the `saveCachedTranscript` upsert after a fetch success). -/
inductive FetchAction where
  | cacheRead : FetchAction
  | fetchDirect : FetchAction
  | fetchList : FetchAction
  | fetchLegacy : FetchAction
  | cacheWrite : FetchAction
deriving DecidableEq

/-- The whole upstream environment of one `fetchTranscriptBestEffort` run. -/
structure OrchestEnv where
  adminOk : Bool
  cacheError : Bool
  cacheRow : Option CacheRow
  directResps : List HttpResp
  listResps : List HttpResp
  listFetchResps : List HttpResp
  legacy : LegacyEnv
deriving DecidableEq

/-- `fetchTranscriptBestEffort` past the override gate: cache, then the
three strategies in priority order, stopping at the first success and
persisting it; a thrown legacy error is caught into the diagnostics
(`watchFallbackError`) and yields the same null result as a null return. -/
def fetchNoOverride (env : OrchestEnv) : Option TranscriptResult × List FetchAction :=
  match getCachedTranscript env.adminOk env.cacheError env.cacheRow with
  | some c => (some c, [FetchAction.cacheRead])
  | none =>
    match tryTimedTextDirect env.directResps with
    | some r => (some r, [FetchAction.cacheRead, FetchAction.fetchDirect, FetchAction.cacheWrite])
    | none =>
      match tryTimedTextFromList env.listResps env.listFetchResps with
      | some r => (some r, [FetchAction.cacheRead, FetchAction.fetchDirect,
          FetchAction.fetchList, FetchAction.cacheWrite])
      | none =>
        match tryTranscriptFromWatchOrInnertube env.legacy with
        | .ok (some r) => (some r, [FetchAction.cacheRead, FetchAction.fetchDirect,
            FetchAction.fetchList, FetchAction.fetchLegacy, FetchAction.cacheWrite])
        | _ => (none, [FetchAction.cacheRead, FetchAction.fetchDirect,
            FetchAction.fetchList, FetchAction.fetchLegacy])

/-- The override gate
`transcriptOverride && transcriptOverride.trim().length >= 200`. -/
def overrideAccepted (o : Chars) : Bool :=
  !(o == []) && decide (200 ≤ (jsTrim o).length)

/-- The `TranscriptResult` built from an accepted override: collapsed
whitespace, no segments, no language, no cache involvement. -/
def overrideResult (o : Chars) : TranscriptResult :=
  ⟨collapseWs o, [], none, Source.override, false⟩

/-- `fetchTranscriptBestEffort`: an accepted override returns immediately
(no cache or network effect at all); otherwise fall through the cache and
the strategies. -/
def fetchTranscriptBestEffort (override : Option Chars) (env : OrchestEnv) :
    Option TranscriptResult × List FetchAction :=
  match override with
  | some o => if overrideAccepted o then (some (overrideResult o), []) else fetchNoOverride env
  | none => fetchNoOverride env

/-! ### Note synthesis call and error envelope -/

/-- The settled generation-gateway response: transport status plus the
parsed response body (`res.json()`). -/
structure AiResp where
  ok : Bool
  status : Nat
  body : Json

/-- A thrown JS `Error` as the boundary layer sees it: its message and the
optional `code` property attached via `Object.assign`. -/
structure JsError where
  message : Chars
  code : Option Chars

/-- `data?.choices?.[0]?.message`. -/
def aiMessageOf (body : Json) : Option Json :=
  ((jsonGet body "choices".data).bind fun j => jsonIdx j 0).bind
    fun j => jsonGet j "message".data

/-- `msg?.tool_calls?.[0]?.function?.arguments`, when it is a string. -/
def toolArgsOf (body : Json) : Option Chars :=
  match (((aiMessageOf body).bind fun j => jsonGet j "tool_calls".data).bind
      fun j => jsonIdx j 0).bind
      (fun j => jsonGet j "function".data) |>.bind
      (fun j => jsonGet j "arguments".data) with
  | some (Json.str s) => some s
  | _ => none

/-- `msg?.content`, when it is a string. -/
def contentOf (body : Json) : Option Chars :=
  match (aiMessageOf body).bind fun j => jsonGet j "content".data with
  | some (Json.str s) => some s
  | _ => none

/-- The literal Error message for HTTP 429. -/
def msgRateLimit : Chars := "Rate limit exceeded. Please try again in a moment.".data

/-- The literal Error message for HTTP 402. -/
def msgPayment : Chars := "Usage limit reached. Please add credits to continue.".data

/-- The literal Error message for any other non-2xx response. -/
def msgGenFail : Chars := "Failed to generate notes. Please try again.".data

/-- The literal Error message for an empty generation response. -/
def msgEmptyAi : Chars := "AI returned an empty response.".data

/-- The `code` property attached to the 429 error. -/
def codeRateLimit : Chars := "RATE_LIMIT".data

/-- The `code` property attached to the 402 error. -/
def codePaymentRequired : Chars := "PAYMENT_REQUIRED".data

/-- A `SyntaxError` escaping `parseJsonLenient` (its host message text is
engine-specific; no claim depends on it). -/
def msgSyntaxError : Chars := "SyntaxError".data

/-- `return parseJsonLenient(...)` inside `callAiNotes`: a parse failure
escapes as an (uncoded) `SyntaxError`. -/
def aiParseStep (s : Chars) : Except JsError Json :=
  match parseJsonLenient s with
  | some v => Except.ok v
  | none => Except.error ⟨msgSyntaxError, none⟩

/-- The content fallback of `callAiNotes` after the tool-call path did not
produce a usable string. -/
def aiContentStep (body : Json) : Except JsError Json :=
  match contentOf body with
  | some s =>
    if jsTrim s = [] then Except.error ⟨msgEmptyAi, none⟩
    else aiParseStep s
  | none => Except.error ⟨msgEmptyAi, none⟩

/-- `callAiNotes`: status classification (429 and 402 carry `code`
properties; any other non-2xx throws a plain error), then the tool-call
arguments, then the content fallback, then the empty-response error. -/
def callAiNotes (resp : AiResp) : Except JsError Json :=
  if !resp.ok then
    if resp.status = 429 then Except.error ⟨msgRateLimit, some codeRateLimit⟩
    else if resp.status = 402 then Except.error ⟨msgPayment, some codePaymentRequired⟩
    else Except.error ⟨msgGenFail, none⟩
  else
    match toolArgsOf resp.body with
    | some s => if jsTrim s = [] then aiContentStep resp.body else aiParseStep s
    | none => aiContentStep resp.body

/-- The uniform error envelope of `serve` (body fields `error` and
`errorCode`; `JSON.stringify` omits an undefined `errorCode`). -/
structure ErrorResponse where
  error : Chars
  errorCode : Option Chars

/-- The `catch` block of `serve`: the thrown error's message and its `code`
property become the envelope's `error` and `errorCode`. -/
def errorEnvelope (e : JsError) : ErrorResponse :=
  ⟨e.message, e.code⟩

/-! ### The post-fetch phase of `serve` -/

/-- What `serve` computes between a successful transcript fetch and the
synthesis request: offset-filtered segments and transcript, the
`hasTimestamps` predicate, the reported duration and the synthesis input
text. -/
structure SynthPrep where
  segments : List TranscriptSegment
  transcript : Chars
  hasTimestamps : Bool
  duration : Chars
  timestamped : Chars
deriving DecidableEq

/-- Lines 934–951 of `serve`: apply the start offset, compute
`hasTimestamps = segments.length > 10`, the duration (only from real
timestamps) and the timestamped transcript (grouped blocks, or the raw
transcript when timestamps are unusable). -/
def prepareSynthesis (tr : TranscriptResult) (startSeconds : ℚ) : SynthPrep :=
  let p := applyStartOffset startSeconds tr.segments tr.transcript
  let hasTs := decide (10 < p.1.length)
  ⟨p.1, p.2, hasTs,
    if hasTs then computeDurationFromSegments p.1 else sUnknown,
    if hasTs then buildTimestampedTranscript p.1 12 else p.2⟩

/-! ### Concrete witness data -/

/-- A placeholder result for `Option.getD` in witness statements. -/
def trDefault : TranscriptResult := ⟨[], [], none, Source.cache, false⟩

/-- One concrete timed-text cue element. -/
def xmlSeg : Chars := "<text start=\"0\" dur=\"1\">aaaaaaaaaaaaaaaaaaaaa</text>".data

/-- A concrete timed-text payload with 12 cues and over 200 characters of
text. -/
def xml12 : Chars := (List.replicate 12 xmlSeg).flatten

/-- A concrete ok caption response carrying `xml12`. -/
def respDirectOk : HttpResp := ⟨true, 200, xml12⟩

/-- A concrete failed HTTP response. -/
def respFail : HttpResp := ⟨false, 404, []⟩

/-- A concrete legacy environment whose watch-page fetches all fail. -/
def legacyEnvFail : LegacyEnv := ⟨[respFail, respFail, respFail], respFail, respFail⟩

/-- A concrete orchestrator environment with no cache client and a direct
strategy that succeeds on its first request. -/
def envDirectOk : OrchestEnv := ⟨false, false, none, [respDirectOk], [], [], legacyEnvFail⟩

/-- A concrete orchestrator environment in which everything fails. -/
def envAllFail : OrchestEnv := ⟨false, false, none, [], [], [], legacyEnvFail⟩

/-- A concrete 200-character override string. -/
def ovr200 : Chars := List.replicate 200 'a'

/-- A concrete cache row. -/
def cacheRowX : CacheRow := ⟨"x".data, none, none⟩

/-! ### The restricted JSON class and wrappings of Claim C4 -/

/-- The backtick character (spelled by code point). -/
def backtickCh : Char := Char.ofNat 96

/-- The safe string alphabet of the amended Claim C4: ASCII letters, digits
and the space character. -/
def okChar (c : Char) : Bool :=
  (97 ≤ c.toNat && c.toNat ≤ 122) || (65 ≤ c.toNat && c.toNat ≤ 90)
    || (48 ≤ c.toNat && c.toNat ≤ 57) || c.toNat == 32

mutual
/-- A JSON value whose strings (member values and keys) stay inside the
safe alphabet. -/
def okJson : Json → Bool
  | .null => true
  | .bool _ => true
  | .num _ => true
  | .str s => s.all okChar
  | .arr xs => okItems xs
  | .obj fs => okFields fs

/-- `okJson` on every array element. -/
def okItems : List Json → Bool
  | [] => true
  | x :: xs => okJson x && okItems xs

/-- `okJson` on every member key and value. -/
def okFields : List (Chars × Json) → Bool
  | [] => true
  | (k, v) :: fs => k.all okChar && okJson v && okFields fs
end

/-- Is the value a JSON object at top level? -/
def isObjTop : Json → Bool
  | .obj _ => true
  | _ => false

/-- Variant (b) of Claim C4: the serialization wrapped in a fenced
` ```json ` code block. -/
def fenceWrap (s : Chars) : Chars :=
  "```json\n".data ++ s ++ "\n```".data

/-- Variant (d) of Claim C4: the serialization with one trailing comma
inserted before the final closing brace. -/
def serWithTrailingComma (v : Json) : Chars :=
  (serJson v).dropLast ++ [',', '}']

/-- A remainder that cannot extend a serialized value: empty or starting
with a JSON delimiter (comma or a closing bracket). -/
def restStop : Chars → Bool
  | [] => true
  | c :: _ => c == ',' || c == '}' || c == ']'

/-- The ten decimal digit characters. -/
def digitChars : Chars := "0123456789".data

/-- A character that may legally follow a comma in serialized JSON: not
whitespace, not a closing bracket, and not another comma, so the
trailing-comma regex can never match inside such text. -/
def commaFollowerOk (c : Char) : Bool :=
  !isJsWs c && !(c == '}') && !(c == ']') && !(c == ',')

/-- Every comma of the string is immediately followed by a
`commaFollowerOk` character (in particular no comma is last). -/
def commaSafe : Chars → Bool
  | [] => true
  | c :: rest =>
    if c = ',' then
      (match rest with
       | [] => false
       | d :: _ => commaFollowerOk d) && commaSafe rest
    else commaSafe rest

/-- The output alphabet of the serializer on `okJson` values: safe string
characters plus the structural characters. -/
def serAlphabetOk (c : Char) : Bool :=
  okChar c || c == '-' || c == '"' || c == ':' || c == ','
    || c == '[' || c == ']' || c == '{' || c == '}'

/-- A concrete orchestrator environment whose cache read errors while the
direct strategy can succeed. -/
def envCacheErr : OrchestEnv := ⟨true, true, some cacheRowX, [respDirectOk], [], [], legacyEnvFail⟩

/-- A concrete safe object for evaluating the amended Claim C4. -/
def vO : Json :=
  Json.obj [("title".data, Json.str "Intro to Lean".data), ("count".data, Json.num 3)]

/-- A JSON object whose string value embeds a fenced block, defeating the
lenient parser. -/
def vBad : Json := Json.obj [("a".data, Json.str "```json 1 ```".data)]

/-! ## Theorems -/

/-- The chunker never produces more than `maxChunks` chunks. -/
theorem splitIntoChunks_length_le (t : Chars) (c k : Nat) :
    (splitIntoChunks t c k).length ≤ k := by
  induction k generalizing t with
  | zero => cases t <;> simp [splitIntoChunks]
  | succ n ih =>
    cases t with
    | nil => simp [splitIntoChunks]
    | cons x rest =>
      simpa only [splitIntoChunks, List.length_cons, Nat.succ_le_succ_iff] using ih _

/-- Every chunk is a `take`, hence at most `maxChars` characters. -/
theorem splitIntoChunks_chunk_le (t : Chars) (c k : Nat) (ch : Chars)
    (h : ch ∈ splitIntoChunks t c k) : ch.length ≤ c := by
  induction k generalizing t with
  | zero => cases t <;> simp [splitIntoChunks] at h
  | succ n ih =>
    cases t with
    | nil => simp [splitIntoChunks] at h
    | cons x rest =>
      simp only [splitIntoChunks, List.mem_cons] at h
      rcases h with h | h
      · subst h; exact List.length_take_le c _
      · exact ih _ h

/-- Concatenating the chunks gives exactly the first
`maxChars * maxChunks` characters of the input. -/
theorem splitIntoChunks_flatten (t : Chars) (c k : Nat) :
    (splitIntoChunks t c k).flatten = t.take (c * k) := by
  induction k generalizing t with
  | zero => cases t <;> simp [splitIntoChunks]
  | succ n ih =>
    cases t with
    | nil => simp [splitIntoChunks]
    | cons x rest =>
      simp only [splitIntoChunks, List.flatten_cons, ih]
      rw [← List.take_add]
      congr 1
      ring

/-- Claim C3 (amended): for every input and configuration the chunker
produces at most `maxChunks` chunks of at most `maxChars` characters each,
and concatenating them in order reproduces exactly the first
`maxChars * maxChunks` characters of the input — the whole input whenever
it fits, while anything beyond that bound is dropped. -/
theorem c3_chunker_partition (t : Chars) (c k : Nat) :
    (splitIntoChunks t c k).length ≤ k
    ∧ (∀ ch, ch ∈ splitIntoChunks t c k → ch.length ≤ c)
    ∧ (splitIntoChunks t c k).flatten = t.take (c * k)
    ∧ (t.length ≤ c * k → (splitIntoChunks t c k).flatten = t) := by
  refine ⟨splitIntoChunks_length_le t c k,
    fun ch h => splitIntoChunks_chunk_le t c k ch h,
    splitIntoChunks_flatten t c k, fun hle => ?_⟩
  rw [splitIntoChunks_flatten t c k]
  exact List.take_of_length_le hle

/-- Witness for C3 at a concrete input. -/
theorem c3_chunker_partition_witness :
    ("ab".data).length ≤ 2
    ∧ (splitIntoChunks "abcde".data 2 3).flatten = "abcde".data.take 6 :=
  ⟨(c3_chunker_partition "abcde".data 2 3).2.1 "ab".data (by decide),
   (c3_chunker_partition "abcde".data 2 3).2.2.1⟩

/-- Counterexample to Claim C3 as stated: with input `"abc"`, one-character
chunks and a limit of two chunks, the concatenation of the produced chunks
is `"ab"`, not the original input — the chunker truncates once
`maxChars * maxChunks` characters are exhausted, so the round trip loses
data for long inputs. -/
theorem c3_counterexample :
    (splitIntoChunks "abc".data 1 2).flatten ≠ "abc".data := by decide

/-- Claim C6: with a positive start offset and a non-empty segment list,
the serve-phase filter keeps exactly the segments starting at or after the
offset (with their re-joined text) whenever at least one segment qualifies,
and keeps the original segments and transcript untouched whenever the
filter would remove everything. -/
theorem c6_offset_filter (startSeconds : ℚ) (segs : List TranscriptSegment)
    (transcript : Chars) (hpos : 0 < startSeconds) (hne : segs ≠ []) :
    ((∃ s ∈ segs, startSeconds ≤ s.start) →
      applyStartOffset startSeconds segs transcript =
        (segs.filter fun s => startSeconds ≤ s.start,
          joinSpace ((segs.filter fun s => startSeconds ≤ s.start).map
            TranscriptSegment.text)))
    ∧ ((∀ s ∈ segs, s.start < startSeconds) →
      applyStartOffset startSeconds segs transcript = (segs, transcript)) := by
  have hlen : segs.length ≠ 0 := fun h => hne (List.length_eq_zero.mp h)
  constructor
  · rintro ⟨s, hs, hstart⟩
    have hmem : s ∈ segs.filter fun x => startSeconds ≤ x.start :=
      List.mem_filter.mpr ⟨hs, by simpa using hstart⟩
    have hfne : (segs.filter fun x => startSeconds ≤ x.start).length ≠ 0 := by
      have := List.ne_nil_of_mem hmem
      simpa [List.length_eq_zero] using this
    simp only [applyStartOffset, if_pos (And.intro hpos hlen), if_pos hfne]
  · intro hall
    have hfe : (segs.filter fun x => startSeconds ≤ x.start) = [] := by
      refine List.filter_eq_nil_iff.mpr fun s hs => ?_
      simpa using not_le.mpr (hall s hs)
    simp only [applyStartOffset, if_pos (And.intro hpos hlen), hfe]
    simp

/-- Witness for C6 at a concrete offset and segment list: filtering keeps
the one segment at or past the offset, and an offset past every segment
leaves the input untouched. -/
theorem c6_offset_filter_witness :
    applyStartOffset 5 [⟨"a".data, 1, 1⟩, ⟨"b".data, 9, 1⟩] "a b".data =
        ([⟨"b".data, 9, 1⟩], "b".data)
    ∧ applyStartOffset 99 [⟨"a".data, 1, 1⟩, ⟨"b".data, 9, 1⟩] "a b".data =
        ([⟨"a".data, 1, 1⟩, ⟨"b".data, 9, 1⟩], "a b".data) := by
  constructor
  · have h := (c6_offset_filter 5 [⟨"a".data, 1, 1⟩, ⟨"b".data, 9, 1⟩] "a b".data
      (by decide) (by decide)).1 ⟨⟨"b".data, 9, 1⟩, by decide, by decide⟩
    rw [h]; decide
  · have h := (c6_offset_filter 99 [⟨"a".data, 1, 1⟩, ⟨"b".data, 9, 1⟩] "a b".data
      (by decide) (by decide)).2 (by decide)
    rw [h]

/-- One unfolding step of the chunker on a non-empty input. -/
theorem splitIntoChunks_cons (t : Chars) (c k : Nat) (hne : t ≠ []) :
    splitIntoChunks t c (k + 1) = t.take c :: splitIntoChunks (t.drop c) c k := by
  cases t with
  | nil => exact absurd rfl hne
  | cons x rest => rfl

/-- The chunker stops on an exhausted input. -/
theorem splitIntoChunks_nil (c k : Nat) : splitIntoChunks [] c k = [] := by
  cases k <;> rfl

/-- Claim C7: a 50,000-character timestamped transcript (over the 24,000
direct-mode ceiling, with 18,000-character chunks capped at 6) is split into
exactly 3 chunks, and the synthesis phase issues exactly 3 sequential
chunk-summary generator calls followed by exactly 1 final synthesis call —
4 generator calls in total. -/
theorem c7_long_transcript_plan (t : Chars) (h : t.length = 50000) :
    (splitIntoChunks t CHUNK_CHARS MAX_CHUNKS).length = 3
    ∧ generatorCallPlan t =
        [GenCall.chunkSummary, GenCall.chunkSummary, GenCall.chunkSummary, GenCall.synthesis]
    ∧ (generatorCallPlan t).length = 4 := by
  have h1 : t ≠ [] := by
    intro hn; rw [hn] at h; simp at h
  have hd1 : (t.drop 18000).length = 32000 := by simp [List.length_drop, h]
  have h2 : t.drop 18000 ≠ [] := by
    intro hn; rw [hn] at hd1; simp at hd1
  have hd2 : ((t.drop 18000).drop 18000).length = 14000 := by
    simp only [List.length_drop]; omega
  have h3 : (t.drop 18000).drop 18000 ≠ [] := by
    intro hn; rw [hn] at hd2; simp at hd2
  have hd3 : (((t.drop 18000).drop 18000).drop 18000) = [] := by
    rw [← List.length_eq_zero]
    simp only [List.length_drop]; omega
  have hsplit : splitIntoChunks t CHUNK_CHARS MAX_CHUNKS =
      [t.take 18000, (t.drop 18000).take 18000, ((t.drop 18000).drop 18000).take 18000] := by
    show splitIntoChunks t 18000 6 = _
    rw [splitIntoChunks_cons t 18000 5 h1,
      splitIntoChunks_cons _ 18000 4 h2,
      splitIntoChunks_cons _ 18000 3 h3,
      hd3, splitIntoChunks_nil]
  have hnotle : ¬ t.length ≤ DIRECT_MAX_CHARS := by
    rw [h]; decide
  refine ⟨by rw [hsplit]; rfl, ?_, ?_⟩
  · rw [generatorCallPlan, if_neg hnotle, hsplit]; rfl
  · rw [generatorCallPlan, if_neg hnotle, hsplit]; rfl

/-- Witness for C7 at a concrete 50,000-character transcript. -/
theorem c7_long_transcript_plan_witness :
    generatorCallPlan (List.replicate 50000 'x') =
      [GenCall.chunkSummary, GenCall.chunkSummary, GenCall.chunkSummary, GenCall.synthesis] :=
  (c7_long_transcript_plan (List.replicate 50000 'x') (List.length_replicate 50000 'x')).2.1

/-- The source's `if (end > maxEnd)` fold is the fold of `max`. -/
theorem foldl_pickmax_eq (e : TranscriptSegment → ℚ) (segs : List TranscriptSegment) (a : ℚ) :
    segs.foldl (fun m s => if m < e s then e s else m) a = (segs.map e).foldl max a := by
  induction segs generalizing a with
  | nil => rfl
  | cons s rest ih =>
    simp only [List.foldl_cons, List.map_cons]
    rw [ih]
    congr 1
    rcases lt_or_le a (e s) with h | h
    · rw [if_pos h, max_eq_right (le_of_lt h)]
    · rw [if_neg (not_lt.mpr h), max_eq_left h]

/-- A `max` fold dominates its initial value. -/
theorem foldl_max_ge_init (l : List ℚ) (a : ℚ) : a ≤ l.foldl max a := by
  induction l generalizing a with
  | nil => simp
  | cons x rest ih => exact le_trans (le_max_left a x) (ih _)

/-- A `max` fold dominates every element. -/
theorem foldl_max_ge_mem (l : List ℚ) (a x : ℚ) (h : x ∈ l) : x ≤ l.foldl max a := by
  induction l generalizing a with
  | nil => simp at h
  | cons y rest ih =>
    rcases List.mem_cons.mp h with rfl | h
    · exact le_trans (le_max_right a x) (foldl_max_ge_init rest _)
    · exact ih _ h

/-- A `max` fold is the initial value or one of the elements. -/
theorem foldl_max_mem (l : List ℚ) (a : ℚ) : l.foldl max a = a ∨ l.foldl max a ∈ l := by
  induction l generalizing a with
  | nil => left; rfl
  | cons x rest ih =>
    simp only [List.foldl_cons]
    rcases ih (max a x) with h | h
    · rcases max_choice a x with hm | hm
      · left; rw [h, hm]
      · right; rw [h, hm]; exact List.mem_cons_self x rest
    · right; exact List.mem_cons_of_mem _ h

/-- `jsRem q m = q` whenever `0 ≤ q < m` (the truncated quotient is zero). -/
theorem jsRem_of_lt (q m : ℚ) (h0 : 0 ≤ q) (hm : 0 < m) (hlt : q < m) :
    jsRem q m = q := by
  have hq0 : 0 ≤ q / m := div_nonneg h0 (le_of_lt hm)
  have hq1 : q / m < 1 := (div_lt_one hm).mpr hlt
  have hfl : (q / m).floor = 0 := by
    have h1 : (0 : Int) ≤ Rat.floor (q / m) := Rat.le_floor.mpr (by exact_mod_cast hq0)
    have h2 : ¬ (1 : Int) ≤ Rat.floor (q / m) := by
      intro hc
      have : (1 : ℚ) ≤ q / m := by exact_mod_cast Rat.le_floor.mp hc
      exact absurd hq1 (not_lt.mpr this)
    omega
  rw [jsRem, if_neg (not_lt.mpr hq0), hfl]
  have : qOfInt 0 = 0 := by decide
  rw [this, mul_zero, sub_zero]

/-- The branch selector of `formatTimestamp`: the hours field is positive
exactly when the input reaches one hour. -/
theorem formatTimestamp_hours_pos (q : ℚ) :
    (0 < jsFloor (q / 3600) ↔ 3600 ≤ q) := by
  constructor
  · intro h
    have h1 : (1 : Int) ≤ Rat.floor (q / 3600) := h
    have : (1 : ℚ) ≤ q / 3600 := by exact_mod_cast Rat.le_floor.mp h1
    calc (3600 : ℚ) = 3600 * 1 := by norm_num
    _ ≤ 3600 * (q / 3600) := by nlinarith
    _ = q := by field_simp
  · intro h
    have : (1 : ℚ) ≤ q / 3600 := by
      rw [le_div_iff₀ (by norm_num : (0:ℚ) < 3600)]; linarith
    exact_mod_cast Rat.le_floor.mpr (by exact_mod_cast this)

/-- The two output shapes of `formatTimestamp` on non-negative input: the
`h:mm:ss` form at or beyond one hour (hours unpadded and positive, minutes
and seconds two-digit padded), the `m:ss` form below one hour (with the
minutes field exactly `⌊q / 60⌋`). -/
theorem formatTimestamp_shape (q : ℚ) (h0 : 0 ≤ q) :
    (3600 ≤ q →
      formatTimestamp q =
        intChars (jsFloor (q / 3600)) ++ ':' ::
          (padStart2 (intChars (jsFloor (jsRem q 3600 / 60))) ++ ':' ::
            padStart2 (intChars (jsFloor (jsRem q 60))))
      ∧ 0 < jsFloor (q / 3600))
    ∧ (q < 3600 →
      formatTimestamp q =
        intChars (jsFloor (q / 60)) ++ ':' :: padStart2 (intChars (jsFloor (jsRem q 60)))) := by
  constructor
  · intro h
    have hpos := (formatTimestamp_hours_pos q).mpr h
    exact ⟨by rw [formatTimestamp, if_pos hpos], hpos⟩
  · intro h
    have hz : ¬ 0 < jsFloor (q / 3600) := fun hc =>
      absurd h (not_lt.mpr ((formatTimestamp_hours_pos q).mp hc))
    rw [formatTimestamp, if_neg hz, jsRem_of_lt q 3600 h0 (by norm_num) h]

/-- Claim C8 (amended): for a non-empty segment list whose greatest
`start + duration` is `M`, the computed duration is `formatTimestamp M`
when `M` is positive (in `h:mm:ss` form at or beyond one hour, `m:ss` form
below), and `"Unknown"` when the list is empty — but also, beyond the
claim's wording, whenever `M ≤ 0`; segments spanning 0 to 600 seconds give
`"10:00"`. -/
theorem c8_duration (segs : List TranscriptSegment) (M : ℚ) (hne : segs ≠ [])
    (hmem : M ∈ segs.map fun s => s.start + s.duration)
    (hub : ∀ x ∈ segs.map (fun s => s.start + s.duration), x ≤ M) :
    (M ≤ 0 → computeDurationFromSegments segs = sUnknown)
    ∧ (0 < M → computeDurationFromSegments segs = formatTimestamp M
        ∧ (3600 ≤ M →
          formatTimestamp M =
            intChars (jsFloor (M / 3600)) ++ ':' ::
              (padStart2 (intChars (jsFloor (jsRem M 3600 / 60))) ++ ':' ::
                padStart2 (intChars (jsFloor (jsRem M 60)))))
        ∧ (M < 3600 →
          formatTimestamp M =
            intChars (jsFloor (M / 60)) ++ ':' :: padStart2 (intChars (jsFloor (jsRem M 60)))))
    ∧ computeDurationFromSegments [] = sUnknown
    ∧ computeDurationFromSegments [⟨"a".data, 0, 600⟩] = "10:00".data := by
  have hlen : ¬ segs.length = 0 := fun h => hne (List.length_eq_zero.mp h)
  have hF : segs.foldl (fun m s => if m < s.start + s.duration then s.start + s.duration else m) 0
      = (segs.map fun s => s.start + s.duration).foldl max 0 :=
    foldl_pickmax_eq _ segs 0
  have hF0 : (0:ℚ) ≤ (segs.map fun s => s.start + s.duration).foldl max 0 :=
    foldl_max_ge_init _ 0
  have hFM : M ≤ (segs.map fun s => s.start + s.duration).foldl max 0 :=
    foldl_max_ge_mem _ 0 M hmem
  have hcases := foldl_max_mem (segs.map fun s => s.start + s.duration) 0
  refine ⟨?_, ?_, by decide, by decide⟩
  · intro hM
    have hFz : (segs.map fun s => s.start + s.duration).foldl max 0 = 0 := by
      rcases hcases with h | h
      · exact h
      · exact le_antisymm (le_trans (hub _ h) hM) hF0
    rw [computeDurationFromSegments, if_neg hlen]
    simp only [hF, hFz]
    rw [if_pos le_rfl]
  · intro hM
    have hFeq : (segs.map fun s => s.start + s.duration).foldl max 0 = M := by
      rcases hcases with h | h
      · exact absurd (h ▸ hFM) (not_le.mpr hM)
      · exact le_antisymm (hub _ h) hFM
    have h0 : (0:ℚ) ≤ M := le_of_lt hM
    have hshape := formatTimestamp_shape M h0
    refine ⟨?_, fun hh => (hshape.1 hh).1, hshape.2⟩
    rw [computeDurationFromSegments, if_neg hlen]
    simp only [hF, hFeq]
    rw [if_neg (not_le.mpr hM)]

/-- Witness for C8 at a concrete segment list spanning 0–600 seconds. -/
theorem c8_duration_witness :
    computeDurationFromSegments [⟨"a".data, 0, 600⟩] = formatTimestamp 600 :=
  ((c8_duration [⟨"a".data, 0, 600⟩] 600 (by decide) (by decide)
    (by decide)).2.1 (by norm_num)).1

/-- Counterexample to Claim C8 as stated: a non-empty segment list whose
greatest `start + duration` is `0` yields `"Unknown"`, not the formatted
maximum `"0:00"` — the source also answers `"Unknown"` for any non-empty
list whose maximum end is not positive, not only for the empty list. -/
theorem c8_counterexample :
    computeDurationFromSegments [⟨"a".data, 0, 0⟩] = sUnknown
    ∧ formatTimestamp ((0:ℚ) + 0) ≠ sUnknown := by
  constructor
  · decide
  · decide

/-- The content fallback yields the distinct empty-response error whenever
no usable content string is present. -/
theorem aiContentStep_empty (body : Json)
    (hco : ∀ s, contentOf body = some s → jsTrim s = []) :
    aiContentStep body = Except.error ⟨msgEmptyAi, none⟩ := by
  rw [aiContentStep]
  cases hco2 : contentOf body with
  | none => rfl
  | some s => simp [hco s hco2]

/-- Claim C5 (amended): the generator-call outcomes are classified as four
typed errors — HTTP 429 throws the rate-limit error carrying the code
`RATE_LIMIT`, HTTP 402 throws the quota error carrying the code
`PAYMENT_REQUIRED`, any other non-2xx response throws the generic
generation failure, and an absent or blank response content throws the
distinct empty-response error — and the boundary layer copies each thrown
error's message and `code` property into the envelope, so 429 and 402
surface under distinct `errorCode`s while the generic and empty-response
failures are distinguished by message only (both leave `errorCode`
absent). -/
theorem c5_ai_error_classification (resp : AiResp) :
    (resp.ok = false → resp.status = 429 →
      callAiNotes resp = Except.error ⟨msgRateLimit, some codeRateLimit⟩)
    ∧ (resp.ok = false → resp.status = 402 →
      callAiNotes resp = Except.error ⟨msgPayment, some codePaymentRequired⟩)
    ∧ (resp.ok = false → resp.status ≠ 429 → resp.status ≠ 402 →
      callAiNotes resp = Except.error ⟨msgGenFail, none⟩)
    ∧ (resp.ok = true →
      (∀ s, toolArgsOf resp.body = some s → jsTrim s = []) →
      (∀ s, contentOf resp.body = some s → jsTrim s = []) →
      callAiNotes resp = Except.error ⟨msgEmptyAi, none⟩)
    ∧ (∀ e, callAiNotes resp = Except.error e →
      (errorEnvelope e).error = e.message ∧ (errorEnvelope e).errorCode = e.code)
    ∧ codeRateLimit ≠ codePaymentRequired := by
  refine ⟨?_, ?_, ?_, ?_, fun e _ => ⟨rfl, rfl⟩, by decide⟩
  · intro hok h429
    simp [callAiNotes, hok, h429]
  · intro hok h402
    simp [callAiNotes, hok, h402]
  · intro hok h429 h402
    simp [callAiNotes, hok, h429, h402]
  · intro hok hta hco
    have hcs := aiContentStep_empty resp.body hco
    rw [callAiNotes, hok]
    cases hta2 : toolArgsOf resp.body with
    | none => simpa [hta2] using hcs
    | some s =>
      have := hta s hta2
      simpa [hta2, this] using hcs

/-- Witness for C5: the classification at the concrete 429 and 402
responses of the quota-exhausted scenario. -/
theorem c5_ai_error_classification_witness :
    callAiNotes ⟨false, 429, Json.null⟩ = Except.error ⟨msgRateLimit, some codeRateLimit⟩
    ∧ callAiNotes ⟨false, 402, Json.null⟩ = Except.error ⟨msgPayment, some codePaymentRequired⟩ :=
  ⟨(c5_ai_error_classification ⟨false, 429, Json.null⟩).1 rfl rfl,
   (c5_ai_error_classification ⟨false, 402, Json.null⟩).2.1 rfl rfl⟩

/-- Counterexample to Claim C5 as stated: the generic generation failure
(HTTP 500 here) and the empty-response failure map to the same absent
`errorCode` in the envelope, so the four outcome classes are not all
surfaced under distinct user-facing codes — only 429 and 402 are. -/
theorem c5_counterexample :
    callAiNotes ⟨false, 500, Json.null⟩ = Except.error ⟨msgGenFail, none⟩
    ∧ callAiNotes ⟨true, 200, Json.obj []⟩ = Except.error ⟨msgEmptyAi, none⟩
    ∧ (errorEnvelope ⟨msgGenFail, none⟩).errorCode
        = (errorEnvelope ⟨msgEmptyAi, none⟩).errorCode
    ∧ msgGenFail ≠ msgEmptyAi :=
  ⟨rfl, rfl, rfl, by decide⟩

/-- Any success of the direct-endpoint loop passes the usable-parse gate
and is tagged with the `timedtext` source. -/
theorem tryTimedTextDirectAux_inv (resps : List HttpResp) (r : TranscriptResult)
    (h : tryTimedTextDirectAux resps = some r) :
    10 < r.segments.length ∧ 200 < r.transcript.length ∧ r.source = Source.timedtext := by
  induction resps with
  | nil => simp [tryTimedTextDirectAux] at h
  | cons x rest ih =>
    rw [tryTimedTextDirectAux] at h
    split at h
    · exact ih h
    · split at h
      · rename_i hgate
        cases h
        simp only [usableParse, Bool.and_eq_true, decide_eq_true_eq] at hgate
        exact ⟨hgate.1, hgate.2, rfl⟩
      · exact ih h

/-- When every response parses below the gate, the direct loop fails. -/
theorem tryTimedTextDirectAux_none (resps : List HttpResp)
    (h : ∀ resp ∈ resps, usableParse (parseTimedTextXml resp.body) = false) :
    tryTimedTextDirectAux resps = none := by
  induction resps with
  | nil => rfl
  | cons x rest ih =>
    rw [tryTimedTextDirectAux]
    split
    · exact ih fun resp hm => h resp (List.mem_cons_of_mem _ hm)
    · rw [if_neg (by simp [h x (List.mem_cons_self x rest)]), ih]
      exact fun resp hm => h resp (List.mem_cons_of_mem _ hm)

/-- Any success of the list-strategy fetch loop passes the usable-parse
gate and is tagged with the `timedtext_list` source. -/
theorem tryTimedTextFromListAux_inv (lang : Chars) (resps : List HttpResp)
    (r : TranscriptResult) (h : tryTimedTextFromListAux lang resps = some r) :
    10 < r.segments.length ∧ 200 < r.transcript.length ∧ r.source = Source.timedtextList := by
  induction resps with
  | nil => simp [tryTimedTextFromListAux] at h
  | cons x rest ih =>
    rw [tryTimedTextFromListAux] at h
    split at h
    · exact ih h
    · split at h
      · rename_i hgate
        cases h
        simp only [usableParse, Bool.and_eq_true, decide_eq_true_eq] at hgate
        exact ⟨hgate.1, hgate.2, rfl⟩
      · exact ih h

/-- When every response parses below the gate, the list fetch loop fails. -/
theorem tryTimedTextFromListAux_none (lang : Chars) (resps : List HttpResp)
    (h : ∀ resp ∈ resps, usableParse (parseTimedTextXml resp.body) = false) :
    tryTimedTextFromListAux lang resps = none := by
  induction resps with
  | nil => rfl
  | cons x rest ih =>
    rw [tryTimedTextFromListAux]
    split
    · exact ih fun resp hm => h resp (List.mem_cons_of_mem _ hm)
    · rw [if_neg (by simp [h x (List.mem_cons_self x rest)]), ih]
      exact fun resp hm => h resp (List.mem_cons_of_mem _ hm)

/-- Any success of the watch/Innertube tail passes the usable-parse gate on
the caption fetch and is tagged `watch` or `innertube`. -/
theorem legacyAfterPlayer_inv (env : LegacyEnv) (pr : Option Json) (used : Bool)
    (r : TranscriptResult) (h : legacyAfterPlayer env pr used = Except.ok (some r)) :
    10 < r.segments.length ∧ 200 < r.transcript.length
    ∧ (r.source = Source.watch ∨ r.source = Source.innertube)
    ∧ usableParse (parseTimedTextXml env.trackResp.body) = true := by
  rw [legacyAfterPlayer] at h
  repeat' split at h
  all_goals cases h
  all_goals simp_all [usableParse]

/-- The whole legacy strategy only succeeds through the gated tail. -/
theorem tryTranscriptFromWatchOrInnertube_inv (env : LegacyEnv) (r : TranscriptResult)
    (h : tryTranscriptFromWatchOrInnertube env = Except.ok (some r)) :
    10 < r.segments.length ∧ 200 < r.transcript.length
    ∧ (r.source = Source.watch ∨ r.source = Source.innertube)
    ∧ usableParse (parseTimedTextXml env.trackResp.body) = true := by
  rw [tryTranscriptFromWatchOrInnertube] at h
  cases hw : fetchWatchHtml env.watchResps with
  | error e => rw [hw] at h; exact absurd h (by simp)
  | ok html =>
    rw [hw] at h
    dsimp only at h
    cases hp : resolvePlayer env html with
    | error e => rw [hp] at h; exact absurd h (by simp)
    | ok pu =>
      rw [hp] at h
      exact legacyAfterPlayer_inv env pu.1 pu.2 r h

/-- Claim C2: every `TranscriptResult` returned as success by any of the
three fetcher strategies satisfies `segments.length > 10` and
`transcript.length > 200` (the shared parse acceptance gate); and whenever
the upstream caption payloads parse to 10 or fewer segments or 200 or fewer
characters, the strategy reports failure (`null`), never a truncated
success. -/
theorem c2_fetcher_usable (directResps listResps fetchResps : List HttpResp)
    (env : LegacyEnv) (r : TranscriptResult) :
    (tryTimedTextDirect directResps = some r →
      10 < r.segments.length ∧ 200 < r.transcript.length)
    ∧ (tryTimedTextFromList listResps fetchResps = some r →
      10 < r.segments.length ∧ 200 < r.transcript.length)
    ∧ (tryTranscriptFromWatchOrInnertube env = Except.ok (some r) →
      10 < r.segments.length ∧ 200 < r.transcript.length)
    ∧ ((∀ resp ∈ directResps, usableParse (parseTimedTextXml resp.body) = false) →
      tryTimedTextDirect directResps = none)
    ∧ ((∀ resp ∈ fetchResps, usableParse (parseTimedTextXml resp.body) = false) →
      tryTimedTextFromList listResps fetchResps = none)
    ∧ (usableParse (parseTimedTextXml env.trackResp.body) = false →
      tryTranscriptFromWatchOrInnertube env ≠ Except.ok (some r)) := by
  refine ⟨?_, ?_, ?_, ?_, ?_, ?_⟩
  · intro h
    have hi := tryTimedTextDirectAux_inv _ r h
    exact ⟨hi.1, hi.2.1⟩
  · intro h
    rw [tryTimedTextFromList] at h
    split at h
    · exact absurd h (by simp)
    · have hi := tryTimedTextFromListAux_inv _ _ r h
      exact ⟨hi.1, hi.2.1⟩
  · intro h
    have hi := tryTranscriptFromWatchOrInnertube_inv env r h
    exact ⟨hi.1, hi.2.1⟩
  · intro hall
    exact tryTimedTextDirectAux_none _
      fun resp hm => hall resp (List.take_subset 8 directResps hm)
  · intro hall
    rw [tryTimedTextFromList]
    split
    · rfl
    · exact tryTimedTextFromListAux_none _ _
        fun resp hm => hall resp (List.take_subset 2 fetchResps hm)
  · intro hu h
    have hi := (tryTranscriptFromWatchOrInnertube_inv env r h).2.2.2
    rw [hu] at hi
    exact Bool.noConfusion hi

/-- Witness for C2: the direct strategy on a concrete 12-cue payload
produces a result that satisfies the usable-transcript gate. -/
theorem c2_fetcher_usable_witness :
    10 < ((tryTimedTextDirect [respDirectOk]).getD trDefault).segments.length
    ∧ 200 < ((tryTimedTextDirect [respDirectOk]).getD trDefault).transcript.length :=
  (c2_fetcher_usable [respDirectOk] [] [] legacyEnvFail
    ((tryTimedTextDirect [respDirectOk]).getD trDefault)).1 (by decide)

/-- A member violating the predicate survives `dropWhile`. -/
theorem mem_dropWhile_of_mem {p : Char → Bool} {c : Char} {s : Chars}
    (hc : c ∈ s) (hp : p c = false) : c ∈ s.dropWhile p := by
  induction s with
  | nil => simp at hc
  | cons x rest ih =>
    rw [List.dropWhile_cons]
    rcases List.mem_cons.mp hc with rfl | hm
    · rw [hp]
      simp
    · split
      · exact ih hm
      · exact List.mem_cons_of_mem x hm

/-- A non-whitespace member survives `jsTrim`. -/
theorem mem_jsTrim_of_mem {c : Char} {s : Chars}
    (hc : c ∈ s) (hws : isJsWs c = false) : c ∈ jsTrim s := by
  rw [jsTrim, dropEndWhile]
  rw [List.mem_reverse]
  exact mem_dropWhile_of_mem (by rw [List.mem_reverse]; exact mem_dropWhile_of_mem hc hws) hws

/-- A non-whitespace member survives whitespace collapsing. -/
theorem mem_collapseRunsAux_of_mem {c : Char} {s : Chars} (b : Bool)
    (hc : c ∈ s) (hws : isJsWs c = false) : c ∈ collapseRunsAux b s := by
  induction s generalizing b with
  | nil => simp at hc
  | cons x rest ih =>
    rcases List.mem_cons.mp hc with rfl | hm
    · rw [collapseRunsAux, if_neg (by simp [hws])]
      simp
    · rw [collapseRunsAux]
      split
      · split
        · exact ih _ hm
        · exact List.mem_cons_of_mem _ (ih _ hm)
      · exact List.mem_cons_of_mem _ (ih _ hm)

/-- The head surviving `dropWhile` violates the predicate. -/
theorem dropWhile_head_not {p : Char → Bool} {s : Chars} {c : Char} {t : Chars}
    (h : s.dropWhile p = c :: t) : p c = false := by
  induction s with
  | nil => simp at h
  | cons x rest ih =>
    rw [List.dropWhile_cons] at h
    split at h
    · exact ih h
    · cases h
      rename_i hx
      simpa using hx

/-- A string with a non-empty trim collapses to a non-empty string: the
normalised override text of an accepted override is never empty. -/
theorem collapseWs_ne_nil_of_trim {o : Chars} (h : jsTrim o ≠ []) :
    collapseWs o ≠ [] := by
  have h1 : o.dropWhile isJsWs ≠ [] := by
    intro hd
    apply h
    rw [jsTrim, hd, dropEndWhile]
    rfl
  obtain ⟨c, t, hct⟩ := List.exists_cons_of_ne_nil h1
  have hcw : isJsWs c = false := dropWhile_head_not hct
  have hco : c ∈ o := by
    have hsub : o.dropWhile isJsWs ⊆ o := (List.dropWhile_sublist _).subset
    exact hsub (hct ▸ List.mem_cons_self c t)
  have : c ∈ collapseWs o :=
    mem_jsTrim_of_mem (mem_collapseRunsAux_of_mem false hco hcw) hcw
  exact List.ne_nil_of_mem this

/-- The cache read only reports hits with a non-empty transcript, tagged
with the `cache` source. -/
theorem getCachedTranscript_inv (a e : Bool) (row : Option CacheRow) (r : TranscriptResult)
    (h : getCachedTranscript a e row = some r) :
    r.source = Source.cache ∧ r.transcript ≠ [] := by
  rw [getCachedTranscript.eq_def] at h
  repeat' split at h
  all_goals cases h
  rename_i hne
  exact ⟨rfl, hne⟩

/-- Any success of the no-override path is a cache hit or a strategy
result, with the corresponding guarantees. -/
theorem fetchNoOverride_inv (env : OrchestEnv) (r : TranscriptResult)
    (h : (fetchNoOverride env).1 = some r) :
    ((r.source = Source.timedtext ∨ r.source = Source.timedtextList
      ∨ r.source = Source.watch ∨ r.source = Source.innertube) →
      10 < r.segments.length ∧ 200 < r.transcript.length)
    ∧ (r.source = Source.cache → r.transcript ≠ [])
    ∧ r.source ≠ Source.override := by
  rw [fetchNoOverride] at h
  split at h
  · rename_i c hc
    cases h
    have hi := getCachedTranscript_inv _ _ _ _ hc
    refine ⟨fun hs => ?_, fun _ => hi.2, ?_⟩
    · rw [hi.1] at hs
      rcases hs with hs | hs | hs | hs <;> exact absurd hs (by simp)
    · rw [hi.1]
      simp
  · split at h
    · rename_i rr hr
      cases h
      have hi := tryTimedTextDirectAux_inv _ _ hr
      refine ⟨fun _ => ⟨hi.1, hi.2.1⟩, fun hs => ?_, ?_⟩ <;> rw [hi.2.2] at *
      · exact absurd hs (by simp)
      · simp
    · split at h
      · rename_i rr hr
        cases h
        rw [tryTimedTextFromList] at hr
        split at hr
        · exact absurd hr (by simp)
        · have hi := tryTimedTextFromListAux_inv _ _ _ hr
          refine ⟨fun _ => ⟨hi.1, hi.2.1⟩, fun hs => ?_, ?_⟩ <;> rw [hi.2.2] at *
          · exact absurd hs (by simp)
          · simp
      · split at h
        · rename_i rr hr
          cases h
          have hi := tryTranscriptFromWatchOrInnertube_inv _ _ hr
          refine ⟨fun _ => ⟨hi.1, hi.2.1⟩, fun hs => ?_, ?_⟩
          · rcases hi.2.2.1 with hw | hw <;> rw [hw] at hs <;> exact absurd hs (by simp)
          · rcases hi.2.2.1 with hw | hw <;> rw [hw] <;> simp
        · exact absurd h (by simp)

/-- Claim C1 (amended): every result the orchestrator hands downstream as a
success satisfies the usable-transcript invariant only when it came from a
fetcher strategy; a cache hit guarantees just a non-empty transcript (its
stored segment list is passed through unchecked), and an override result
has a non-empty transcript with an empty segment list. -/
theorem c1_downstream_result (override : Option Chars) (env : OrchestEnv)
    (r : TranscriptResult) (h : (fetchTranscriptBestEffort override env).1 = some r) :
    ((r.source = Source.timedtext ∨ r.source = Source.timedtextList
      ∨ r.source = Source.watch ∨ r.source = Source.innertube) →
      10 < r.segments.length ∧ 200 < r.transcript.length ∧ r.transcript ≠ [])
    ∧ (r.source = Source.cache → r.transcript ≠ [])
    ∧ (r.source = Source.override → r.transcript ≠ [] ∧ r.segments = []) := by
  rw [fetchTranscriptBestEffort.eq_def] at h
  rcases override with _ | o
  · have hi := fetchNoOverride_inv env r h
    refine ⟨fun hs => ?_, hi.2.1, fun hs => absurd hs hi.2.2⟩
    obtain ⟨h1, h2⟩ := hi.1 hs
    refine ⟨h1, h2, fun hnil => ?_⟩
    rw [hnil] at h2
    simp at h2
  · dsimp only at h
    by_cases ho : overrideAccepted o = true
    · rw [if_pos ho] at h
      cases h
      have htr : jsTrim o ≠ [] := by
        simp only [overrideAccepted, Bool.and_eq_true, decide_eq_true_eq] at ho
        intro hnil
        rw [hnil] at ho
        simp at ho
      refine ⟨fun hs => ?_, fun hs => ?_, fun _ => ⟨collapseWs_ne_nil_of_trim htr, rfl⟩⟩
      · rcases hs with hs | hs | hs | hs <;> exact absurd hs (by simp [overrideResult])
      · exact absurd hs (by simp [overrideResult])
    · rw [if_neg ho] at h
      have hi := fetchNoOverride_inv env r h
      refine ⟨fun hs => ?_, hi.2.1, fun hs => absurd hs hi.2.2⟩
      obtain ⟨h1, h2⟩ := hi.1 hs
      refine ⟨h1, h2, fun hnil => ?_⟩
      rw [hnil] at h2
      simp at h2

/-- Witness for C1 at a concrete direct-strategy success. -/
theorem c1_downstream_result_witness :
    10 < ((fetchTranscriptBestEffort none envDirectOk).1.getD trDefault).segments.length
    ∧ 200 < ((fetchTranscriptBestEffort none envDirectOk).1.getD trDefault).transcript.length
    ∧ ((fetchTranscriptBestEffort none envDirectOk).1.getD trDefault).transcript ≠ [] :=
  (c1_downstream_result none envDirectOk
    ((fetchTranscriptBestEffort none envDirectOk).1.getD trDefault)
    (by decide)).1 (by decide)

/-- Counterexample to Claim C1 as stated: a 200-character transcript
override yields a result the pipeline passes downstream as success whose
segment list is empty — far below the `segments.length > 10` half of the
usable-transcript invariant (`hasTimestamps` is false for it in the
synthesis phase, yet synthesis proceeds). -/
theorem c1_counterexample :
    (fetchTranscriptBestEffort (some ovr200) envAllFail).1 = some (overrideResult ovr200)
    ∧ ¬ 10 < (overrideResult ovr200).segments.length
    ∧ (prepareSynthesis (overrideResult ovr200) 0).hasTimestamps = false := by
  refine ⟨by decide, by decide, by decide⟩

/-- Claim C9: an errored cache read behaves exactly like a cache miss — the
orchestrator runs the same strategies with the same outcome and the same
effect trace as with an absent cache row, and (the cache being consulted
through the error-absorbing `getCachedTranscript`) no cache failure ever
surfaces as an error of the run. -/
theorem c9_cache_error_is_miss (override : Option Chars) (env : OrchestEnv)
    (herr : env.cacheError = true) :
    fetchTranscriptBestEffort override env =
      fetchTranscriptBestEffort override
        ⟨env.adminOk, false, none, env.directResps, env.listResps,
          env.listFetchResps, env.legacy⟩ := by
  have h1 : getCachedTranscript env.adminOk env.cacheError env.cacheRow = none := by
    rw [getCachedTranscript.eq_def, herr]
    cases env.adminOk <;> simp
  have h2 : getCachedTranscript env.adminOk false (none : Option CacheRow) = none := by
    rw [getCachedTranscript.eq_def]
    cases env.adminOk <;> simp
  rcases override with _ | o
  · show fetchNoOverride env = fetchNoOverride _
    rw [fetchNoOverride, fetchNoOverride, h1, h2]
  · show (if overrideAccepted o then _ else fetchNoOverride env) = _
    by_cases ho : overrideAccepted o = true
    · rw [if_pos ho, fetchTranscriptBestEffort, if_pos ho]
    · rw [if_neg ho, fetchTranscriptBestEffort, if_neg ho]
      show fetchNoOverride env = fetchNoOverride _
      rw [fetchNoOverride, fetchNoOverride, h1, h2]

/-- Witness for C9 at a concrete erroring cache environment. -/
theorem c9_cache_error_is_miss_witness :
    fetchTranscriptBestEffort none envCacheErr =
      fetchTranscriptBestEffort none
        ⟨true, false, none, [respDirectOk], [], [], legacyEnvFail⟩ :=
  c9_cache_error_is_miss none envCacheErr rfl

/-- Claim C10: an override whose trimmed length reaches 200 short-circuits
the orchestrator — the result is the whitespace-collapsed override with the
`override` source and no segments, no cache read, no fetcher call and no
cache write happens (the effect trace is empty) — and the synthesis phase
therefore reports duration `"Unknown"` and sends the untimestamped
override text to synthesis, for any start offset. -/
theorem c10_override_path (o : Chars) (env : OrchestEnv) (s : ℚ)
    (hne : o ≠ []) (hlen : 200 ≤ (jsTrim o).length) :
    fetchTranscriptBestEffort (some o) env = (some (overrideResult o), [])
    ∧ (overrideResult o).transcript = collapseWs o
    ∧ (overrideResult o).segments = []
    ∧ (overrideResult o).source = Source.override
    ∧ (overrideResult o).usedCache = false
    ∧ prepareSynthesis (overrideResult o) s =
        ⟨[], collapseWs o, false, sUnknown, collapseWs o⟩ := by
  have hacc : overrideAccepted o = true := by
    simp only [overrideAccepted, Bool.and_eq_true, decide_eq_true_eq]
    exact ⟨by simpa using hne, hlen⟩
  refine ⟨?_, rfl, rfl, rfl, rfl, ?_⟩
  · rw [fetchTranscriptBestEffort, if_pos hacc]
  · simp [prepareSynthesis, applyStartOffset, overrideResult]

/-- Witness for C10 at a concrete 200-character override. -/
theorem c10_override_path_witness :
    fetchTranscriptBestEffort (some ovr200) envAllFail = (some (overrideResult ovr200), [])
    ∧ prepareSynthesis (overrideResult ovr200) 0 =
        ⟨[], collapseWs ovr200, false, sUnknown, collapseWs ovr200⟩ :=
  ⟨(c10_override_path ovr200 envAllFail 0 (by decide) (by decide)).1,
   (c10_override_path ovr200 envAllFail 0 (by decide) (by decide)).2.2.2.2.2⟩

/-! ### Digit-run and scanning lemmas supporting Claim C4 -/

/-- `takeWhile`/`dropWhile` over a concatenation whose left part satisfies
the predicate throughout and whose right part stops it immediately. -/
theorem takeWhile_append_all {p : Char → Bool} (a b : Chars)
    (ha : ∀ c ∈ a, p c = true) (hb : b.takeWhile p = []) :
    (a ++ b).takeWhile p = a ∧ (a ++ b).dropWhile p = b := by
  induction a with
  | nil =>
    refine ⟨by simpa using hb, ?_⟩
    cases b with
    | nil => rfl
    | cons c t =>
      rw [List.takeWhile_cons] at hb
      rw [List.nil_append, List.dropWhile_cons]
      split at hb
      · exact absurd hb (by simp)
      · rename_i hp
        rw [if_neg hp]
  | cons c a ih =>
    have hc : p c = true := ha c (List.mem_cons_self c a)
    have ihr := ih fun x hx => ha x (List.mem_cons_of_mem c hx)
    constructor
    · rw [List.cons_append, List.takeWhile_cons, if_pos hc, ihr.1]
    · rw [List.cons_append, List.dropWhile_cons, if_pos hc, ihr.2]

/-- The accumulator of `natCharsFuel` rides along on the right. -/
theorem natCharsFuel_acc (f : Nat) : ∀ (n : Nat) (acc : Chars),
    natCharsFuel f n acc = natCharsFuel f n [] ++ acc := by
  induction f with
  | zero => intro n acc; rfl
  | succ f ih =>
    intro n acc
    rw [natCharsFuel, natCharsFuel]
    split
    · rfl
    · rw [ih, ih (n / 10) [digitOf (n % 10)]]
      simp

/-- `natCharsFuel` is fuel-independent above its argument. -/
theorem natCharsFuel_stable : ∀ (f g n : Nat), n ≤ f → n ≤ g →
    natCharsFuel f n [] = natCharsFuel g n [] := by
  intro f
  induction f with
  | zero =>
    intro g n hf hg
    obtain rfl : n = 0 := Nat.le_zero.mp hf
    cases g with
    | zero => rfl
    | succ g => simp [natCharsFuel]
  | succ f ih =>
    intro g n hf hg
    by_cases h10 : n < 10
    · cases g with
      | zero =>
        obtain rfl : n = 0 := Nat.le_zero.mp hg
        simp [natCharsFuel]
      | succ g => simp [natCharsFuel, h10]
    · cases g with
      | zero => omega
      | succ g =>
        rw [natCharsFuel, natCharsFuel, if_neg h10, if_neg h10,
          natCharsFuel_acc f, natCharsFuel_acc g]
        rw [ih g (n / 10) (by omega) (by omega)]

/-- Unfolding `natChars` below ten. -/
theorem natChars_lt10 (n : Nat) (h : n < 10) : natChars n = [digitOf n] := by
  cases n with
  | zero => rfl
  | succ m => simp [natChars, natCharsFuel, h]

/-- Unfolding `natChars` at ten and above: leading digits then the last. -/
theorem natChars_ge10 (n : Nat) (h : 10 ≤ n) :
    natChars n = natChars (n / 10) ++ [digitOf (n % 10)] := by
  obtain ⟨f, rfl⟩ : ∃ f, n = f + 1 := ⟨n - 1, by omega⟩
  rw [natChars, natCharsFuel, if_neg (by omega), natCharsFuel_acc]
  rw [natCharsFuel_stable f ((f + 1) / 10) ((f + 1) / 10) (by omega) le_rfl]
  rfl

/-- Every digit character is in the digit list. -/
theorem digitOf_mem (d : Nat) : digitOf d ∈ digitChars := by
  rcases d with _|_|_|_|_|_|_|_|_|d <;>
    first
      | decide
      | exact (show ('9' : Char) ∈ digitChars by decide)

/-- The digit value inverts `digitOf` below ten. -/
theorem digitValOf_digitOf : ∀ d, d < 10 → digitValOf (digitOf d) = d := by decide

/-- All characters printed by `natChars` are decimal digits. -/
theorem natChars_mem_digits (n : Nat) : ∀ c ∈ natChars n, c ∈ digitChars := by
  induction n using Nat.strong_induction_on with
  | _ n ih =>
    by_cases h : n < 10
    · rw [natChars_lt10 n h]
      intro c hc
      rw [List.mem_singleton] at hc
      exact hc ▸ digitOf_mem n
    · rw [natChars_ge10 n (by omega)]
      intro c hc
      rcases List.mem_append.mp hc with hm | hm
      · exact ih (n / 10) (by omega) c hm
      · rw [List.mem_singleton] at hm
        exact hm ▸ digitOf_mem (n % 10)

/-- `natChars` is never empty. -/
theorem natChars_ne_nil (n : Nat) : natChars n ≠ [] := by
  by_cases h : n < 10
  · rw [natChars_lt10 n h]; simp
  · rw [natChars_ge10 n (by omega)]; simp

/-- The digit fold inverts the decimal printer. -/
theorem digitsVal_natChars (n : Nat) : digitsVal (natChars n) = n := by
  induction n using Nat.strong_induction_on with
  | _ n ih =>
    by_cases h : n < 10
    · rw [natChars_lt10 n h, digitsVal, List.foldl_cons, List.foldl_nil,
        digitValOf_digitOf n h]
      omega
    · rw [natChars_ge10 n (by omega), digitsVal, List.foldl_append]
      rw [show (natChars (n / 10)).foldl (fun a c => 10 * a + digitValOf c) 0
          = digitsVal (natChars (n / 10)) from rfl]
      rw [ih (n / 10) (by omega), List.foldl_cons, List.foldl_nil,
        digitValOf_digitOf (n % 10) (by omega)]
      omega

/-- The digit list consists of digit characters. -/
theorem digitChars_are_digits : ∀ c ∈ digitChars, isDigitCh c = true := by decide

/-- No digit character collides with the structural characters the parser
dispatches on. -/
theorem digitChars_not_special : ∀ c ∈ digitChars,
    c ≠ '-' ∧ c ≠ '"' ∧ c ≠ '[' ∧ c ≠ '{' ∧ c ≠ 't' ∧ c ≠ 'f' ∧ c ≠ 'n'
    ∧ isJsonWs c = false ∧ commaFollowerOk c = true := by decide

/-- A stopped remainder begins with no digit. -/
theorem restStop_no_digit (rest : Chars) (h : restStop rest = true) :
    rest.takeWhile isDigitCh = [] := by
  cases rest with
  | nil => rfl
  | cons c t =>
    simp only [restStop, Bool.or_eq_true, beq_iff_eq] at h
    rcases h with (rfl | rfl) | rfl <;> rfl

/-- A stopped remainder begins with no whitespace. -/
theorem restStop_skipWs (rest : Chars) (h : restStop rest = true) :
    skipJsonWs rest = rest := by
  cases rest with
  | nil => rfl
  | cons c t =>
    simp only [restStop, Bool.or_eq_true, beq_iff_eq] at h
    rw [skipJsonWs, List.dropWhile_cons]
    rcases h with (rfl | rfl) | rfl <;> rfl

/-- `parseDigits` inverts the decimal printer against a stopped remainder. -/
theorem parseDigits_natChars (n : Nat) (rest : Chars)
    (hr : rest.takeWhile isDigitCh = []) :
    parseDigits (natChars n ++ rest) = some (n, rest) := by
  have hall : ∀ c ∈ natChars n, isDigitCh c = true :=
    fun c hc => digitChars_are_digits c (natChars_mem_digits n c hc)
  obtain ⟨ht, hd⟩ := takeWhile_append_all _ _ hall hr
  rw [parseDigits, ht, hd, if_neg (natChars_ne_nil n), digitsVal_natChars]

/-- `parseJsonNum` inverts the integer printer against a stopped
remainder. -/
theorem parseJsonNum_intChars (i : Int) (rest : Chars) (hr : restStop rest = true) :
    parseJsonNum (intChars i ++ rest) = some (Json.num i, rest) := by
  have hrd := restStop_no_digit rest hr
  by_cases h : i < 0
  · rw [intChars, if_pos h, parseJsonNum]
    rw [List.cons_append]
    have hhd : (('-' : Char) :: (natChars i.natAbs ++ rest)).head? = some '-' := rfl
    rw [if_pos hhd, List.tail_cons, parseDigits_natChars i.natAbs rest hrd]
    have hni : -(i.natAbs : Int) = i := by omega
    simp only [Option.map_some']
    rw [hni]
  · rw [intChars, if_neg h, parseJsonNum]
    obtain ⟨c, t, hct⟩ := List.exists_cons_of_ne_nil (natChars_ne_nil i.natAbs)
    have hcd : c ∈ digitChars := natChars_mem_digits i.natAbs c (hct ▸ List.mem_cons_self c t)
    have hneg : ¬ ((natChars i.natAbs ++ rest).head? = some '-') := by
      rw [hct, List.cons_append, List.head?_cons]
      intro hc
      exact absurd (Option.some.inj hc) (digitChars_not_special c hcd).1
    rw [if_neg hneg, parseDigits_natChars i.natAbs rest hrd]
    have hni : (i.natAbs : Int) = i := by omega
    simp only [Option.map_some']
    rw [hni]

/-- A safe-alphabet character is none of the structural or escape-relevant
characters of the JSON grammar. -/
theorem okChar_ne (c : Char) (h : okChar c = true) :
    c ≠ '"' ∧ c ≠ '\\' ∧ c ≠ backtickCh ∧ c ≠ '{' ∧ c ≠ '}' ∧ c ≠ '[' ∧ c ≠ ']'
    ∧ c ≠ ',' ∧ c ≠ ':' ∧ c ≠ '\x08' ∧ c ≠ '\x0c' ∧ c ≠ '\n' ∧ c ≠ '\r' ∧ c ≠ '\t' := by
  refine ⟨?_, ?_, ?_, ?_, ?_, ?_, ?_, ?_, ?_, ?_, ?_, ?_, ?_, ?_⟩ <;>
    (intro he; subst he; revert h; decide)

/-- A safe-alphabet character is not a control character. -/
theorem okChar_ge32 (c : Char) (h : okChar c = true) : ¬ c.toNat < 32 := by
  simp only [okChar, Bool.or_eq_true, Bool.and_eq_true, decide_eq_true_eq,
    beq_iff_eq] at h
  omega

/-- A safe-alphabet character lies in the serializer output alphabet. -/
theorem okChar_serAlphabet (c : Char) (h : okChar c = true) : serAlphabetOk c = true := by
  simp [serAlphabetOk, h]

/-- No serializer-alphabet character is a backtick. -/
theorem serAlphabetOk_ne_backtick (c : Char) (h : serAlphabetOk c = true) :
    c ≠ backtickCh := by
  intro he
  subst he
  revert h
  decide

/-- Escaping is the identity on safe characters. -/
theorem escapeJsonChar_ok (c : Char) (h : okChar c = true) : escapeJsonChar c = [c] := by
  obtain ⟨h1, h2, -, -, -, -, -, -, -, h8, h9, h10, h11, h12⟩ := okChar_ne c h
  rw [escapeJsonChar, if_neg h1, if_neg h2, if_neg h8, if_neg h9, if_neg h10,
    if_neg h11, if_neg h12, if_neg (okChar_ge32 c h)]

/-- Serializing a safe string body is the identity. -/
theorem flatMap_escape_ok (s : Chars) (h : ∀ c ∈ s, okChar c = true) :
    s.flatMap escapeJsonChar = s := by
  induction s with
  | nil => rfl
  | cons c t ih =>
    rw [List.flatMap_cons, escapeJsonChar_ok c (h c (List.mem_cons_self c t)),
      ih (fun d hd => h d (List.mem_cons_of_mem c hd))]
    rfl

/-- The string-literal parser inverts the serializer on safe bodies. -/
theorem parseJsonStr_ser (s : Chars) (rest : Chars) (h : ∀ c ∈ s, okChar c = true) :
    parseJsonStr (s ++ '"' :: rest) = some (s, rest) := by
  induction s with
  | nil =>
    rw [List.nil_append, parseJsonStr.eq_def]
    dsimp only
    rw [if_pos rfl]
  | cons c t ih =>
    obtain ⟨h1, h2, -⟩ := okChar_ne c (h c (List.mem_cons_self c t))
    rw [List.cons_append, parseJsonStr.eq_def]
    dsimp only
    rw [if_neg h1, if_neg h2,
      if_neg (okChar_ge32 c (h c (List.mem_cons_self c t))),
      ih (fun d hd => h d (List.mem_cons_of_mem c hd))]
    rfl

/-- `skipJsonWs` is the identity on a string with a non-whitespace head. -/
theorem skipJsonWs_cons (c : Char) (t : Chars) (h : isJsonWs c = false) :
    skipJsonWs (c :: t) = c :: t := by
  simp [skipJsonWs, List.dropWhile_cons, h]

/-- A list starts with itself followed by anything. -/
theorem listStartsWith_prefix (p t : Chars) : listStartsWith p (p ++ t) = true := by
  induction p with
  | nil => rfl
  | cons c cs ih => simp [listStartsWith, ih]

/-- A head mismatch refutes `listStartsWith`. -/
theorem listStartsWith_head_ne (p c : Char) (ps cs : Chars) (h : p ≠ c) :
    listStartsWith (p :: ps) (c :: cs) = false := by
  simp [listStartsWith, h]

/-- The head character of any serialized value is non-whitespace and a legal
comma follower. -/
theorem serJson_head_ok (v : Json) :
    ∃ c t, serJson v = c :: t ∧ commaFollowerOk c = true ∧ isJsonWs c = false := by
  cases v with
  | null => exact ⟨'n', _, rfl, by decide, by decide⟩
  | bool b => cases b with
    | false => exact ⟨'f', _, rfl, by decide, by decide⟩
    | true => exact ⟨'t', _, rfl, by decide, by decide⟩
  | num i =>
    by_cases hi : i < 0
    · exact ⟨'-', _, by rw [show serJson (Json.num i) = intChars i from rfl,
        intChars, if_pos hi], by decide, by decide⟩
    · obtain ⟨c, t, hct⟩ := List.exists_cons_of_ne_nil (natChars_ne_nil i.natAbs)
      have hcd : c ∈ digitChars := natChars_mem_digits i.natAbs c
        (hct ▸ List.mem_cons_self c t)
      obtain ⟨-, -, -, -, -, -, -, hws, hcf⟩ := digitChars_not_special c hcd
      exact ⟨c, t, by rw [show serJson (Json.num i) = intChars i from rfl,
        intChars, if_neg hi, hct], hcf, hws⟩
  | str s => exact ⟨'"', _, rfl, by decide, by decide⟩
  | arr xs => exact ⟨'[', _, rfl, by decide, by decide⟩
  | obj fs => exact ⟨'{', _, rfl, by decide, by decide⟩

/-- The head of a serialized nonempty item list is the head of its first
serialized value. -/
theorem serItems_head (y : Json) (rest : List Json) :
    ∃ c t, serItems (y :: rest) = c :: t ∧ commaFollowerOk c = true
      ∧ isJsonWs c = false := by
  obtain ⟨c, t, hct, hcf, hws⟩ := serJson_head_ok y
  cases rest with
  | nil => exact ⟨c, t, by rw [show serItems [y] = serJson y from rfl, hct], hcf, hws⟩
  | cons f fs =>
    exact ⟨c, t ++ ',' :: serItems (f :: fs),
      by rw [show serItems (y :: f :: fs) = serJson y ++ ',' :: serItems (f :: fs) from rfl,
        hct, List.cons_append], hcf, hws⟩

/-- A serialized nonempty field list starts with the opening quote of its
first key. -/
theorem serFields_head (k : Chars) (v : Json) (rest : List (Chars × Json)) :
    ∃ t, serFields ((k, v) :: rest) = '"' :: t := by
  cases rest with
  | nil =>
    exact ⟨(k.flatMap escapeJsonChar ++ ['"']) ++ ':' :: serJson v,
      by rw [show serFields [(k, v)] = serStr k ++ ':' :: serJson v from rfl, serStr,
        List.cons_append]⟩
  | cons f fs =>
    refine ⟨k.flatMap escapeJsonChar ++ ['"'] ++ ':' :: serJson v
      ++ ',' :: serFields (f :: fs), ?_⟩
    rw [show serFields ((k, v) :: f :: fs)
        = (serStr k ++ ':' :: serJson v) ++ ',' :: serFields (f :: fs) from rfl, serStr]
    simp [List.append_assoc]

/-- A legal comma follower is not itself a comma. -/
theorem commaFollowerOk_ne_comma (c : Char) (h : commaFollowerOk c = true) : c ≠ ',' := by
  intro he
  subst he
  revert h
  decide

/-- `commaSafe` ignores a non-comma head. -/
theorem commaSafe_cons_ne (c : Char) (t : Chars) (h : c ≠ ',') :
    commaSafe (c :: t) = commaSafe t := by
  simp [commaSafe, h]

/-- `commaSafe` at a comma checks the follower. -/
theorem commaSafe_cons_comma (d : Char) (t : Chars) :
    commaSafe (',' :: d :: t) = (commaFollowerOk d && commaSafe (d :: t)) := by
  simp [commaSafe]

/-- A comma-free string is trivially comma-safe. -/
theorem commaSafe_of_all (s : Chars) (h : ∀ c ∈ s, c ≠ ',') : commaSafe s = true := by
  induction s with
  | nil => rfl
  | cons c t ih =>
    rw [commaSafe_cons_ne c t (h c (List.mem_cons_self c t))]
    exact ih fun d hd => h d (List.mem_cons_of_mem c hd)

/-- Comma-safety is preserved by concatenation. -/
theorem commaSafe_append (a b : Chars) (ha : commaSafe a = true) (hb : commaSafe b = true) :
    commaSafe (a ++ b) = true := by
  induction a with
  | nil => exact hb
  | cons c t ih =>
    by_cases hc : c = ','
    · subst hc
      cases t with
      | nil => simp [commaSafe] at ha
      | cons d t2 =>
        simp only [commaSafe_cons_comma, Bool.and_eq_true] at ha
        simp only [List.cons_append, commaSafe_cons_comma, Bool.and_eq_true]
        exact ⟨ha.1, by rw [← List.cons_append]; exact ih ha.2⟩
    · rw [List.cons_append, commaSafe_cons_ne c _ hc]
      exact ih (by rwa [commaSafe_cons_ne c t hc] at ha)

/-- Digit characters lie in the serializer alphabet. -/
theorem digitChars_serAlphabet : ∀ c ∈ digitChars, serAlphabetOk c = true := by decide

/-- Digit characters are not commas. -/
theorem digitChars_ne_comma : ∀ c ∈ digitChars, c ≠ ',' := by decide

/-- A serialized integer stays in the serializer alphabet. -/
theorem intChars_serAlphabet (i : Int) : ∀ c ∈ intChars i, serAlphabetOk c = true := by
  intro c hc
  rw [intChars] at hc
  split at hc
  · rcases List.mem_cons.1 hc with rfl | hm
    · decide
    · exact digitChars_serAlphabet c (natChars_mem_digits _ c hm)
  · exact digitChars_serAlphabet c (natChars_mem_digits _ c hc)

/-- A serialized integer contains no comma. -/
theorem intChars_ne_comma (i : Int) : ∀ c ∈ intChars i, c ≠ ',' := by
  intro c hc
  rw [intChars] at hc
  split at hc
  · rcases List.mem_cons.1 hc with rfl | hm
    · decide
    · exact digitChars_ne_comma c (natChars_mem_digits _ c hm)
  · exact digitChars_ne_comma c (natChars_mem_digits _ c hc)

/-- A serialized safe string stays in the serializer alphabet. -/
theorem serStr_serAlphabet (s : Chars) (h : ∀ c ∈ s, okChar c = true) :
    ∀ c ∈ serStr s, serAlphabetOk c = true := by
  intro c hc
  rw [serStr, flatMap_escape_ok s h] at hc
  rcases List.mem_cons.1 hc with rfl | hm
  · decide
  · rcases List.mem_append.1 hm with hs | hq
    · exact okChar_serAlphabet c (h c hs)
    · rcases List.mem_singleton.1 hq with rfl
      decide

/-- A serialized safe string contains no comma. -/
theorem serStr_ne_comma (s : Chars) (h : ∀ c ∈ s, okChar c = true) :
    ∀ c ∈ serStr s, c ≠ ',' := by
  intro c hc
  rw [serStr, flatMap_escape_ok s h] at hc
  rcases List.mem_cons.1 hc with rfl | hm
  · decide
  · rcases List.mem_append.1 hm with hs | hq
    · exact (okChar_ne c (h c hs)).2.2.2.2.2.2.2.1
    · rcases List.mem_singleton.1 hq with rfl
      decide

mutual
/-- The serialization of a safe value uses only the serializer alphabet. -/
theorem serJson_alphabet (v : Json) (h : okJson v = true) :
    ∀ c ∈ serJson v, serAlphabetOk c = true := by
  cases v with
  | null => exact fun c hc => (show ∀ x ∈ kwNull, serAlphabetOk x = true by decide) c hc
  | bool b =>
    cases b with
    | false => exact fun c hc => (show ∀ x ∈ kwFalse, serAlphabetOk x = true by decide) c hc
    | true => exact fun c hc => (show ∀ x ∈ kwTrue, serAlphabetOk x = true by decide) c hc
  | num i => exact fun c hc => intChars_serAlphabet i c hc
  | str s =>
    exact fun c hc => serStr_serAlphabet s (List.all_eq_true.1 h) c hc
  | arr xs =>
    intro c hc
    have hc' : c ∈ '[' :: (serItems xs ++ [']']) := hc
    rcases List.mem_cons.1 hc' with rfl | hm
    · decide
    · rcases List.mem_append.1 hm with hs | hq
      · exact serItems_alphabet xs h c hs
      · rcases List.mem_singleton.1 hq with rfl
        decide
  | obj fs =>
    intro c hc
    have hc' : c ∈ '{' :: (serFields fs ++ ['}']) := hc
    rcases List.mem_cons.1 hc' with rfl | hm
    · decide
    · rcases List.mem_append.1 hm with hs | hq
      · exact serFields_alphabet fs h c hs
      · rcases List.mem_singleton.1 hq with rfl
        decide

/-- The serialization of safe array items uses only the serializer alphabet. -/
theorem serItems_alphabet (xs : List Json) (h : okItems xs = true) :
    ∀ c ∈ serItems xs, serAlphabetOk c = true := by
  cases xs with
  | nil => intro c hc; exact absurd (show c ∈ ([] : Chars) from hc) (List.not_mem_nil c)
  | cons x rest =>
    simp only [okItems, Bool.and_eq_true] at h
    cases rest with
    | nil => exact fun c hc => serJson_alphabet x h.1 c hc
    | cons y rest2 =>
      intro c hc
      have hc' : c ∈ serJson x ++ ',' :: serItems (y :: rest2) := hc
      rcases List.mem_append.1 hc' with hs | hq
      · exact serJson_alphabet x h.1 c hs
      · rcases List.mem_cons.1 hq with rfl | hm
        · decide
        · exact serItems_alphabet (y :: rest2) h.2 c hm

/-- The serialization of safe object members uses only the serializer
alphabet. -/
theorem serFields_alphabet (fs : List (Chars × Json)) (h : okFields fs = true) :
    ∀ c ∈ serFields fs, serAlphabetOk c = true := by
  cases fs with
  | nil => intro c hc; exact absurd (show c ∈ ([] : Chars) from hc) (List.not_mem_nil c)
  | cons kv rest =>
    obtain ⟨k, v⟩ := kv
    simp only [okFields, Bool.and_eq_true] at h
    obtain ⟨⟨hk, hv⟩, hrest⟩ := h
    cases rest with
    | nil =>
      intro c hc
      have hc' : c ∈ serStr k ++ ':' :: serJson v := hc
      rcases List.mem_append.1 hc' with hs | hq
      · exact serStr_serAlphabet k (List.all_eq_true.1 hk) c hs
      · rcases List.mem_cons.1 hq with rfl | hm
        · decide
        · exact serJson_alphabet v hv c hm
    | cons f2 rest2 =>
      intro c hc
      have hc' : c ∈ (serStr k ++ ':' :: serJson v) ++ ',' :: serFields (f2 :: rest2) := hc
      rcases List.mem_append.1 hc' with hs | hq
      · rcases List.mem_append.1 hs with hs1 | hs2
        · exact serStr_serAlphabet k (List.all_eq_true.1 hk) c hs1
        · rcases List.mem_cons.1 hs2 with rfl | hm
          · decide
          · exact serJson_alphabet v hv c hm
      · rcases List.mem_cons.1 hq with rfl | hm
        · decide
        · exact serFields_alphabet (f2 :: rest2) hrest c hm
end

mutual
/-- The serialization of a safe value is comma-safe: every comma it contains
is immediately followed by a non-whitespace, non-closing character. -/
theorem serJson_commaSafe (v : Json) (h : okJson v = true) :
    commaSafe (serJson v) = true := by
  cases v with
  | null => decide
  | bool b => cases b <;> decide
  | num i => exact commaSafe_of_all _ (intChars_ne_comma i)
  | str s => exact commaSafe_of_all _ (serStr_ne_comma s (List.all_eq_true.1 h))
  | arr xs =>
    show commaSafe ('[' :: (serItems xs ++ [']'])) = true
    rw [commaSafe_cons_ne _ _ (by decide)]
    exact commaSafe_append _ _ (serItems_commaSafe xs h) (by decide)
  | obj fs =>
    show commaSafe ('{' :: (serFields fs ++ ['}'])) = true
    rw [commaSafe_cons_ne _ _ (by decide)]
    exact commaSafe_append _ _ (serFields_commaSafe fs h) (by decide)

/-- The serialization of safe array items is comma-safe. -/
theorem serItems_commaSafe (xs : List Json) (h : okItems xs = true) :
    commaSafe (serItems xs) = true := by
  cases xs with
  | nil => rfl
  | cons x rest =>
    simp only [okItems, Bool.and_eq_true] at h
    cases rest with
    | nil => exact serJson_commaSafe x h.1
    | cons y rest2 =>
      show commaSafe (serJson x ++ ',' :: serItems (y :: rest2)) = true
      refine commaSafe_append _ _ (serJson_commaSafe x h.1) ?_
      obtain ⟨d, t2, hdt, hdf, -⟩ := serItems_head y rest2
      rw [hdt, commaSafe_cons_comma, hdf, ← hdt, serItems_commaSafe (y :: rest2) h.2]
      rfl

/-- The serialization of safe object members is comma-safe. -/
theorem serFields_commaSafe (fs : List (Chars × Json)) (h : okFields fs = true) :
    commaSafe (serFields fs) = true := by
  cases fs with
  | nil => rfl
  | cons kv rest =>
    obtain ⟨k, v⟩ := kv
    simp only [okFields, Bool.and_eq_true] at h
    obtain ⟨⟨hk, hv⟩, hrest⟩ := h
    cases rest with
    | nil =>
      show commaSafe (serStr k ++ ':' :: serJson v) = true
      refine commaSafe_append _ _
        (commaSafe_of_all _ (serStr_ne_comma k (List.all_eq_true.1 hk))) ?_
      rw [commaSafe_cons_ne _ _ (by decide)]
      exact serJson_commaSafe v hv
    | cons f2 rest2 =>
      obtain ⟨k2, v2⟩ := f2
      show commaSafe ((serStr k ++ ':' :: serJson v) ++ ',' :: serFields ((k2, v2) :: rest2))
        = true
      refine commaSafe_append _ _ ?_ ?_
      · refine commaSafe_append _ _
          (commaSafe_of_all _ (serStr_ne_comma k (List.all_eq_true.1 hk))) ?_
        rw [commaSafe_cons_ne _ _ (by decide)]
        exact serJson_commaSafe v hv
      · obtain ⟨t2, ht2⟩ := serFields_head k2 v2 rest2
        rw [ht2, commaSafe_cons_comma, ← ht2, serFields_commaSafe ((k2, v2) :: rest2) hrest]
        decide
end

/-- A serialized integer starts with a minus sign or a digit. -/
theorem intChars_head (i : Int) :
    ∃ c t, intChars i = c :: t ∧ (c = '-' ∨ c ∈ digitChars) := by
  rw [intChars]
  split
  · exact ⟨'-', natChars i.natAbs, rfl, Or.inl rfl⟩
  · obtain ⟨c, t, hct⟩ := List.exists_cons_of_ne_nil (natChars_ne_nil i.natAbs)
    exact ⟨c, t, hct, Or.inr (natChars_mem_digits i.natAbs c
      (hct ▸ List.mem_cons_self c t))⟩

/-- The value parser dispatches a minus sign or digit head to the number
parser. -/
theorem parseJsonVal_head_num (f : Nat) (c : Char) (t : Chars)
    (hc : c = '-' ∨ c ∈ digitChars) :
    parseJsonVal (f + 1) (c :: t) = parseJsonNum (c :: t) := by
  have hfacts : c ≠ '"' ∧ c ≠ '[' ∧ c ≠ '{' ∧ c ≠ 't' ∧ c ≠ 'f' ∧ c ≠ 'n'
      ∧ isJsonWs c = false ∧ (c = '-' || isDigitCh c) = true := by
    rcases hc with rfl | hd
    · exact ⟨by decide, by decide, by decide, by decide, by decide, by decide,
        by decide, by decide⟩
    · obtain ⟨-, h2, h3, h4, h5, h6, h7, hws, -⟩ := digitChars_not_special c hd
      exact ⟨h2, h3, h4, h5, h6, h7, hws, by simp [digitChars_are_digits c hd]⟩
  obtain ⟨h2, h3, h4, h5, h6, h7, hws, hnum⟩ := hfacts
  rw [parseJsonVal.eq_def]
  dsimp only
  rw [skipJsonWs_cons _ _ hws]
  dsimp only
  rw [if_neg h2, if_neg h3, if_neg h4,
    show kwTrue = 't' :: ['r', 'u', 'e'] from rfl,
    listStartsWith_head_ne _ _ _ _ (Ne.symm h5),
    show kwFalse = 'f' :: ['a', 'l', 's', 'e'] from rfl,
    listStartsWith_head_ne _ _ _ _ (Ne.symm h6),
    show kwNull = 'n' :: ['u', 'l', 'l'] from rfl,
    listStartsWith_head_ne _ _ _ _ (Ne.symm h7)]
  simp [hnum]

mutual
/-- The fuelled value parser inverts the serializer on safe values against
any stopped remainder, for any fuel above the serialized length. -/
theorem rtVal (v : Json) (fuel : Nat) (rest : Chars) (hok : okJson v = true)
    (hf : (serJson v).length < fuel) (hr : restStop rest = true) :
    parseJsonVal fuel (serJson v ++ rest) = some (v, rest) := by
  cases fuel with
  | zero => exact absurd hf (Nat.not_lt_zero _)
  | succ f =>
    cases v with
    | null =>
      show parseJsonVal (f + 1) ('n' :: 'u' :: 'l' :: 'l' :: rest) = some (Json.null, rest)
      rw [parseJsonVal.eq_def]
      dsimp only
      rw [skipJsonWs_cons _ _ (by decide)]
      simp [listStartsWith, kwTrue, kwFalse, kwNull]
    | bool b =>
      cases b with
      | true =>
        show parseJsonVal (f + 1) ('t' :: 'r' :: 'u' :: 'e' :: rest)
          = some (Json.bool true, rest)
        rw [parseJsonVal.eq_def]
        dsimp only
        rw [skipJsonWs_cons _ _ (by decide)]
        simp [listStartsWith, kwTrue, kwFalse, kwNull]
      | false =>
        show parseJsonVal (f + 1) ('f' :: 'a' :: 'l' :: 's' :: 'e' :: rest)
          = some (Json.bool false, rest)
        rw [parseJsonVal.eq_def]
        dsimp only
        rw [skipJsonWs_cons _ _ (by decide)]
        simp [listStartsWith, kwTrue, kwFalse, kwNull]
    | num i =>
      obtain ⟨c, t, hct, hc⟩ := intChars_head i
      show parseJsonVal (f + 1) (intChars i ++ rest) = some (Json.num i, rest)
      rw [hct, List.cons_append, parseJsonVal_head_num f c _ hc, ← List.cons_append, ← hct]
      exact parseJsonNum_intChars i rest hr
    | str s =>
      have hs : ∀ c ∈ s, okChar c = true := List.all_eq_true.1 hok
      show parseJsonVal (f + 1) (('"' :: (s.flatMap escapeJsonChar ++ ['"'])) ++ rest)
        = some (Json.str s, rest)
      rw [flatMap_escape_ok s hs, List.cons_append, parseJsonVal.eq_def]
      dsimp only
      rw [skipJsonWs_cons _ _ (by decide)]
      dsimp only
      rw [if_pos rfl, List.append_assoc, List.singleton_append, parseJsonStr_ser s rest hs]
      rfl
    | arr xs =>
      cases xs with
      | nil =>
        show parseJsonVal (f + 1) (('[' :: (serItems [] ++ [']'])) ++ rest)
          = some (Json.arr [], rest)
        rw [List.cons_append, parseJsonVal.eq_def]
        dsimp only
        rw [skipJsonWs_cons _ _ (by decide)]
        dsimp only
        rw [if_neg (by decide : ¬('[' : Char) = '"'), if_pos rfl,
          show serItems [] ++ [']'] ++ rest = ']' :: rest from rfl,
          skipJsonWs_cons _ _ (by decide)]
        rfl
      | cons x xs2 =>
        have hlen : (serJson (Json.arr (x :: xs2))).length
            = (serItems (x :: xs2)).length + 2 := by
          show ('[' :: (serItems (x :: xs2) ++ [']'])).length = _
          simp
        have hit : parseJsonItems f (serItems (x :: xs2) ++ ']' :: rest)
            = some (x :: xs2, rest) :=
          rtItems (x :: xs2) f rest (by simp) hok (by omega) hr
        obtain ⟨d, t2, hdt, hdf, hws⟩ := serItems_head x xs2
        show parseJsonVal (f + 1) (('[' :: (serItems (x :: xs2) ++ [']'])) ++ rest)
          = some (Json.arr (x :: xs2), rest)
        rw [List.cons_append, parseJsonVal.eq_def]
        dsimp only
        rw [skipJsonWs_cons _ _ (by decide)]
        dsimp only
        rw [if_neg (by decide : ¬('[' : Char) = '"'), if_pos rfl, List.append_assoc,
          List.singleton_append, hdt, List.cons_append, skipJsonWs_cons _ _ hws]
        have hdne : d ≠ ']' := by
          intro he
          rw [he] at hdf
          exact absurd hdf (by decide)
        split
        · next r2 heq =>
          injection heq with h1 h2
          exact absurd h1 hdne
        · next hne =>
          rw [← List.cons_append, ← hdt, hit]
          rfl
    | obj fs =>
      cases fs with
      | nil =>
        show parseJsonVal (f + 1) (('{' :: (serFields [] ++ ['}'])) ++ rest)
          = some (Json.obj [], rest)
        rw [List.cons_append, parseJsonVal.eq_def]
        dsimp only
        rw [skipJsonWs_cons _ _ (by decide)]
        dsimp only
        rw [if_neg (by decide : ¬('{' : Char) = '"'),
          if_neg (by decide : ¬('{' : Char) = '['), if_pos rfl,
          show serFields [] ++ ['}'] ++ rest = '}' :: rest from rfl,
          skipJsonWs_cons _ _ (by decide)]
        rfl
      | cons kv fs2 =>
        obtain ⟨k0, v0⟩ := kv
        have hlen : (serJson (Json.obj ((k0, v0) :: fs2))).length
            = (serFields ((k0, v0) :: fs2)).length + 2 := by
          show ('{' :: (serFields ((k0, v0) :: fs2) ++ ['}'])).length = _
          simp
        have hfl : parseJsonFields f (serFields ((k0, v0) :: fs2) ++ '}' :: rest)
            = some ((k0, v0) :: fs2, rest) :=
          rtFields ((k0, v0) :: fs2) f rest (by simp) hok (by omega) hr
        obtain ⟨t2, ht2⟩ := serFields_head k0 v0 fs2
        show parseJsonVal (f + 1) (('{' :: (serFields ((k0, v0) :: fs2) ++ ['}'])) ++ rest)
          = some (Json.obj ((k0, v0) :: fs2), rest)
        rw [List.cons_append, parseJsonVal.eq_def]
        dsimp only
        rw [skipJsonWs_cons _ _ (by decide)]
        dsimp only
        rw [if_neg (by decide : ¬('{' : Char) = '"'),
          if_neg (by decide : ¬('{' : Char) = '['), if_pos rfl, List.append_assoc,
          List.singleton_append, ht2, List.cons_append, skipJsonWs_cons _ _ (by decide)]
        split
        · next r2 heq =>
          injection heq with h1 h2
          exact absurd h1 (by decide)
        · next hne =>
          rw [← List.cons_append, ← ht2, hfl]
          rfl

/-- The fuelled item parser inverts the item serializer (consuming the
closing bracket) on safe nonempty item lists. -/
theorem rtItems (xs : List Json) (fuel : Nat) (rest : Chars) (hne : xs ≠ [])
    (hok : okItems xs = true) (hf : (serItems xs).length + 1 < fuel)
    (hr : restStop rest = true) :
    parseJsonItems fuel (serItems xs ++ ']' :: rest) = some (xs, rest) := by
  cases fuel with
  | zero => exact absurd hf (Nat.not_lt_zero _)
  | succ f =>
    cases xs with
    | nil => exact absurd rfl hne
    | cons x xs2 =>
      simp only [okItems, Bool.and_eq_true] at hok
      cases xs2 with
      | nil =>
        have hlen : (serItems [x]).length = (serJson x).length := by
          rw [show serItems [x] = serJson x from rfl]
        have hv : parseJsonVal f (serJson x ++ ']' :: rest) = some (x, ']' :: rest) :=
          rtVal x f (']' :: rest) hok.1 (by omega) (by rfl)
        show parseJsonItems (f + 1) (serJson x ++ ']' :: rest) = some ([x], rest)
        rw [parseJsonItems.eq_def]
        dsimp only
        rw [hv]
        dsimp only [Bind.bind, Option.bind]
        rw [skipJsonWs_cons _ _ (by decide)]
        rfl
      | cons y xs3 =>
        have hlen : (serItems (x :: y :: xs3)).length
            = (serJson x).length + 1 + (serItems (y :: xs3)).length := by
          rw [show serItems (x :: y :: xs3) = serJson x ++ ',' :: serItems (y :: xs3) from rfl]
          simp
          omega
        have hv : parseJsonVal f (serJson x ++ ',' :: (serItems (y :: xs3) ++ ']' :: rest))
            = some (x, ',' :: (serItems (y :: xs3) ++ ']' :: rest)) :=
          rtVal x f _ hok.1 (by omega) (by rfl)
        have hit : parseJsonItems f (serItems (y :: xs3) ++ ']' :: rest)
            = some (y :: xs3, rest) :=
          rtItems (y :: xs3) f rest (by simp) hok.2 (by omega) hr
        show parseJsonItems (f + 1)
            ((serJson x ++ ',' :: serItems (y :: xs3)) ++ ']' :: rest)
          = some (x :: y :: xs3, rest)
        rw [List.append_assoc, List.cons_append, parseJsonItems.eq_def]
        dsimp only
        rw [hv]
        dsimp only [Bind.bind, Option.bind]
        rw [skipJsonWs_cons _ _ (by decide)]
        split
        · next r2 heq =>
          injection heq with h1 h2
          subst h2
          rw [hit]
        · next r2 heq =>
          injection heq with h1 h2
          exact absurd h1 (by decide)
        · next hne1 hne2 =>
          exact (hne1 _ rfl).elim

/-- The fuelled member parser inverts the member serializer (consuming the
closing brace) on safe nonempty member lists. -/
theorem rtFields (fs : List (Chars × Json)) (fuel : Nat) (rest : Chars) (hne : fs ≠ [])
    (hok : okFields fs = true) (hf : (serFields fs).length + 1 < fuel)
    (hr : restStop rest = true) :
    parseJsonFields fuel (serFields fs ++ '}' :: rest) = some (fs, rest) := by
  cases fuel with
  | zero => exact absurd hf (Nat.not_lt_zero _)
  | succ f =>
    cases fs with
    | nil => exact absurd rfl hne
    | cons kv fs2 =>
      obtain ⟨k, v⟩ := kv
      simp only [okFields, Bool.and_eq_true] at hok
      obtain ⟨⟨hk, hv⟩, hfs2⟩ := hok
      have hkall : ∀ c ∈ k, okChar c = true := List.all_eq_true.1 hk
      cases fs2 with
      | nil =>
        have hlen : (serFields [(k, v)]).length
            = (serStr k).length + 1 + (serJson v).length := by
          rw [show serFields [(k, v)] = serStr k ++ ':' :: serJson v from rfl]
          simp
          omega
        have hval : parseJsonVal f (serJson v ++ '}' :: rest) = some (v, '}' :: rest) :=
          rtVal v f _ hv (by omega) (by rfl)
        show parseJsonFields (f + 1) ((serStr k ++ ':' :: serJson v) ++ '}' :: rest)
          = some ([(k, v)], rest)
        rw [List.append_assoc, List.cons_append, serStr, flatMap_escape_ok k hkall,
          List.cons_append, parseJsonFields.eq_def]
        dsimp only
        rw [skipJsonWs_cons _ _ (by decide)]
        split
        · next r heq =>
          injection heq with h1 h2
          subst h2
          rw [List.append_assoc, List.singleton_append, parseJsonStr_ser k _ hkall]
          dsimp only [Bind.bind, Option.bind]
          rw [skipJsonWs_cons _ _ (by decide)]
          split
          · next r2 heq2 =>
            injection heq2 with h3 h4
            subst h4
            rw [hval]
            rfl
          · next hne1 =>
            exact (hne1 _ rfl).elim
        · next hne1 =>
          exact (hne1 _ rfl).elim
      | cons f2 fs3 =>
        have hlen : (serFields ((k, v) :: f2 :: fs3)).length
            = (serStr k).length + 1 + (serJson v).length + 1
              + (serFields (f2 :: fs3)).length := by
          rw [show serFields ((k, v) :: f2 :: fs3)
            = (serStr k ++ ':' :: serJson v) ++ ',' :: serFields (f2 :: fs3) from rfl]
          simp
          omega
        have hval : parseJsonVal f
            (serJson v ++ ',' :: (serFields (f2 :: fs3) ++ '}' :: rest))
            = some (v, ',' :: (serFields (f2 :: fs3) ++ '}' :: rest)) :=
          rtVal v f _ hv (by omega) (by rfl)
        have hfl : parseJsonFields f (serFields (f2 :: fs3) ++ '}' :: rest)
            = some (f2 :: fs3, rest) :=
          rtFields (f2 :: fs3) f rest (by simp) hfs2 (by omega) hr
        show parseJsonFields (f + 1)
            (((serStr k ++ ':' :: serJson v) ++ ',' :: serFields (f2 :: fs3)) ++ '}' :: rest)
          = some ((k, v) :: f2 :: fs3, rest)
        rw [List.append_assoc, List.cons_append, List.append_assoc, List.cons_append,
          serStr, flatMap_escape_ok k hkall, List.cons_append, parseJsonFields.eq_def]
        dsimp only
        rw [skipJsonWs_cons _ _ (by decide)]
        split
        · next r heq =>
          injection heq with h1 h2
          subst h2
          rw [List.append_assoc, List.singleton_append, parseJsonStr_ser k _ hkall]
          dsimp only [Bind.bind, Option.bind]
          rw [skipJsonWs_cons _ _ (by decide)]
          split
          · next r2 heq2 =>
            injection heq2 with h3 h4
            subst h4
            rw [hval]
            dsimp only [Bind.bind, Option.bind]
            rw [skipJsonWs_cons _ _ (by decide)]
            split
            · next r4 heq4 =>
              injection heq4 with h5 h6
              subst h6
              rw [hfl]
            · next r4 heq4 =>
              injection heq4 with h5 h6
              exact absurd h5 (by decide)
            · next hne1 hne2 =>
              exact (hne1 _ rfl).elim
          · next hne1 =>
            exact (hne1 _ rfl).elim
        · next hne1 =>
          exact (hne1 _ rfl).elim
end

/-- A legal comma follower, split into its four constituents. -/
theorem commaFollowerOk_split (d : Char) (h : commaFollowerOk d = true) :
    isJsWs d = false ∧ d ≠ '}' ∧ d ≠ ']' ∧ d ≠ ',' := by
  simp only [commaFollowerOk, Bool.and_eq_true, Bool.not_eq_true',
    beq_eq_false_iff_ne] at h
  exact ⟨h.1.1.1, h.1.1.2, h.1.2, h.2⟩

/-- One scanner step on a comma with empty buffer. -/
theorem removeTcAux_comma (rest : Chars) :
    removeTcAux [] (',' :: rest) = removeTcAux [','] rest := by
  rw [removeTcAux.eq_def]
  simp

/-- One scanner step on a non-comma with empty buffer. -/
theorem removeTcAux_nc (c : Char) (rest : Chars) (h : c ≠ ',') :
    removeTcAux [] (c :: rest) = c :: removeTcAux [] rest := by
  rw [removeTcAux.eq_def]
  simp [h]

/-- A buffered comma is flushed unchanged when a regular character follows. -/
theorem removeTcAux_pend_nc (c : Char) (rest : Chars) (h1 : c ≠ '}') (h2 : c ≠ ']')
    (h3 : isJsWs c = false) (h4 : c ≠ ',') :
    removeTcAux [','] (c :: rest) = ',' :: c :: removeTcAux [] rest := by
  rw [removeTcAux.eq_def]
  simp [h1, h2, h3, h4]

/-- A buffered comma is deleted when a closing bracket follows (the regex
match). -/
theorem removeTcAux_pend_close (c : Char) (rest : Chars) (h : c = '}' ∨ c = ']') :
    removeTcAux [','] (c :: rest) = c :: removeTcAux [] rest := by
  rw [removeTcAux.eq_def]
  rcases h with rfl | rfl <;> simp

/-- On a comma-safe prefix, the trailing-comma cleaner deletes exactly the
one inserted comma before the final closing bracket. -/
theorem removeTcAux_clean (u : Chars) (br : Char) (hbr : br = '}' ∨ br = ']')
    (hu : commaSafe u = true) :
    removeTcAux [] (u ++ [',', br]) = u ++ [br] := by
  induction u with
  | nil =>
    rw [List.nil_append, removeTcAux_comma, removeTcAux_pend_close br [] hbr,
      List.nil_append]
    rfl
  | cons c t ih =>
    by_cases hc : c = ','
    · subst hc
      cases t with
      | nil => simp [commaSafe] at hu
      | cons d t2 =>
        rw [commaSafe_cons_comma, Bool.and_eq_true] at hu
        obtain ⟨hd, ht⟩ := hu
        obtain ⟨hw, hbr1, hbr2, hcm⟩ := commaFollowerOk_split d hd
        have hstep := ih ht
        rw [List.cons_append, removeTcAux_nc d _ hcm] at hstep
        have hcore : removeTcAux [] (t2 ++ [',', br]) = t2 ++ [br] :=
          List.cons.injEq .. ▸ hstep |>.2
        rw [List.cons_append, List.cons_append, removeTcAux_comma,
          removeTcAux_pend_nc d _ hbr1 hbr2 hw hcm, hcore]
        rfl
    · rw [List.cons_append, removeTcAux_nc c _ hc,
        ih (by rwa [commaSafe_cons_ne c t hc] at hu)]
      rfl

/-- The member parser fails outright on input whose first significant
character is not a double quote. -/
theorem parseJsonFields_head_ne (f : Nat) (c : Char) (t : Chars)
    (hws : isJsonWs c = false) (hc : c ≠ '"') :
    parseJsonFields f (c :: t) = none := by
  cases f with
  | zero => rfl
  | succ f2 =>
    rw [parseJsonFields.eq_def]
    dsimp only
    rw [skipJsonWs_cons _ _ hws]
    split
    · next r heq =>
      injection heq with h1 h2
      exact absurd h1 hc
    · rfl

/-- A serialized member list with a trailing comma inserted before the
closing brace makes the member parser fail: after the last member the parser
sees the comma, recurses, and finds a closing brace where a key must start. -/
theorem parseJsonFields_tc (k : Chars) (v : Json) (fs : List (Chars × Json)) (fuel : Nat)
    (rest : Chars) (hok : okFields ((k, v) :: fs) = true)
    (hf : (serFields ((k, v) :: fs)).length + 1 < fuel) :
    parseJsonFields fuel (serFields ((k, v) :: fs) ++ ',' :: '}' :: rest) = none := by
  induction fs generalizing k v fuel with
  | nil =>
    cases fuel with
    | zero => exact absurd hf (Nat.not_lt_zero _)
    | succ f =>
      simp only [okFields, Bool.and_eq_true] at hok
      obtain ⟨⟨hk, hv⟩, -⟩ := hok
      have hkall : ∀ c ∈ k, okChar c = true := List.all_eq_true.1 hk
      have hlen : (serFields [(k, v)]).length
          = (serStr k).length + 1 + (serJson v).length := by
        rw [show serFields [(k, v)] = serStr k ++ ':' :: serJson v from rfl]
        simp
        omega
      have hval : parseJsonVal f (serJson v ++ ',' :: ('}' :: rest))
          = some (v, ',' :: ('}' :: rest)) :=
        rtVal v f _ hv (by omega) (by rfl)
      show parseJsonFields (f + 1) ((serStr k ++ ':' :: serJson v) ++ ',' :: '}' :: rest)
        = none
      rw [List.append_assoc, List.cons_append, serStr, flatMap_escape_ok k hkall,
        List.cons_append, parseJsonFields.eq_def]
      dsimp only
      rw [skipJsonWs_cons _ _ (by decide)]
      split
      · next r heq =>
        injection heq with h1 h2
        subst h2
        rw [List.append_assoc, List.singleton_append, parseJsonStr_ser k _ hkall]
        dsimp only [Bind.bind, Option.bind]
        rw [skipJsonWs_cons _ _ (by decide)]
        split
        · next r2 heq2 =>
          injection heq2 with h3 h4
          subst h4
          rw [hval]
          dsimp only [Bind.bind, Option.bind]
          rw [skipJsonWs_cons _ _ (by decide)]
          split
          · next r4 heq4 =>
            injection heq4 with h5 h6
            subst h6
            rw [parseJsonFields_head_ne f '}' rest (by decide) (by decide)]
          · next r4 heq4 =>
            injection heq4 with h5 h6
            exact absurd h5 (by decide)
          · next hne1 hne2 =>
            exact (hne1 _ rfl).elim
        · next hne1 =>
          exact (hne1 _ rfl).elim
      · next hne1 =>
        exact (hne1 _ rfl).elim
  | cons f2 fs3 ih =>
    obtain ⟨k2, v2⟩ := f2
    cases fuel with
    | zero => exact absurd hf (Nat.not_lt_zero _)
    | succ f =>
      simp only [okFields, Bool.and_eq_true] at hok
      obtain ⟨⟨hk, hv⟩, hrest2⟩ := hok
      have hkall : ∀ c ∈ k, okChar c = true := List.all_eq_true.1 hk
      have hlen : (serFields ((k, v) :: (k2, v2) :: fs3)).length
          = (serStr k).length + 1 + (serJson v).length + 1
            + (serFields ((k2, v2) :: fs3)).length := by
        rw [show serFields ((k, v) :: (k2, v2) :: fs3)
          = (serStr k ++ ':' :: serJson v) ++ ',' :: serFields ((k2, v2) :: fs3) from rfl]
        simp
        omega
      have hval : parseJsonVal f
          (serJson v ++ ',' :: (serFields ((k2, v2) :: fs3) ++ ',' :: '}' :: rest))
          = some (v, ',' :: (serFields ((k2, v2) :: fs3) ++ ',' :: '}' :: rest)) :=
        rtVal v f _ hv (by omega) (by rfl)
      have hih : parseJsonFields f (serFields ((k2, v2) :: fs3) ++ ',' :: '}' :: rest)
          = none := by
        refine ih k2 v2 f ?_ ?_
        · simpa only [okFields, Bool.and_eq_true] using hrest2
        · omega
      show parseJsonFields (f + 1)
          (((serStr k ++ ':' :: serJson v) ++ ',' :: serFields ((k2, v2) :: fs3))
            ++ ',' :: '}' :: rest)
        = none
      rw [List.append_assoc, List.cons_append, List.append_assoc, List.cons_append,
        serStr, flatMap_escape_ok k hkall, List.cons_append, parseJsonFields.eq_def]
      dsimp only
      rw [skipJsonWs_cons _ _ (by decide)]
      split
      · next r heq =>
        injection heq with h1 h2
        subst h2
        rw [List.append_assoc, List.singleton_append, parseJsonStr_ser k _ hkall]
        dsimp only [Bind.bind, Option.bind]
        rw [skipJsonWs_cons _ _ (by decide)]
        split
        · next r2 heq2 =>
          injection heq2 with h3 h4
          subst h4
          rw [hval]
          dsimp only [Bind.bind, Option.bind]
          rw [skipJsonWs_cons _ _ (by decide)]
          split
          · next r4 heq4 =>
            injection heq4 with h5 h6
            subst h6
            rw [hih]
          · next r4 heq4 =>
            injection heq4 with h5 h6
            exact absurd h5 (by decide)
          · next hne1 hne2 =>
            exact (hne1 _ rfl).elim
        · next hne1 =>
          exact (hne1 _ rfl).elim
      · next hne1 =>
        exact (hne1 _ rfl).elim

/-- Shape of the trailing-comma variant of a serialized object. -/
theorem serWithTrailingComma_obj (fs : List (Chars × Json)) :
    serWithTrailingComma (Json.obj fs) = '{' :: (serFields fs ++ [',', '}']) := by
  rw [serWithTrailingComma,
    show serJson (Json.obj fs) = ('{' :: serFields fs) ++ ['}'] by
      rw [show serJson (Json.obj fs) = '{' :: (serFields fs ++ ['}']) from rfl,
        List.cons_append],
    List.dropLast_concat, List.cons_append]

/-- The strict parse of a serialized object with a trailing comma fails with
a syntax error. -/
theorem jsonParse_serTC (fs : List (Chars × Json)) (hok : okFields fs = true) :
    jsonParse (serWithTrailingComma (Json.obj fs)) = none := by
  rw [serWithTrailingComma_obj]
  have hpv : parseJsonVal (('{' :: (serFields fs ++ [',', '}'])).length + 1)
      ('{' :: (serFields fs ++ [',', '}'])) = none := by
    rw [show ('{' :: (serFields fs ++ [',', '}'])).length + 1
        = ((serFields fs).length + 3) + 1 by simp]
    rw [parseJsonVal.eq_def]
    dsimp only
    rw [skipJsonWs_cons _ _ (by decide)]
    dsimp only
    rw [if_neg (by decide : ¬('{' : Char) = '"'),
      if_neg (by decide : ¬('{' : Char) = '['), if_pos rfl]
    cases fs with
    | nil =>
      rw [show serFields [] ++ [',', '}'] = ',' :: ['}'] from rfl,
        skipJsonWs_cons _ _ (by decide)]
      split
      · next r2 heq =>
        injection heq with h1 h2
        exact absurd h1 (by decide)
      · next hne1 =>
        rw [parseJsonFields_head_ne _ ',' _ (by decide) (by decide)]
        rfl
    | cons kv fs2 =>
      obtain ⟨k0, v0⟩ := kv
      obtain ⟨t2, ht2⟩ := serFields_head k0 v0 fs2
      rw [ht2, List.cons_append, skipJsonWs_cons _ _ (by decide)]
      split
      · next r2 heq =>
        injection heq with h1 h2
        exact absurd h1 (by decide)
      · next hne1 =>
        rw [← List.cons_append, ← ht2,
          show ([',', '}'] : Chars) = ',' :: '}' :: [] from rfl,
          parseJsonFields_tc k0 v0 fs2 _ [] hok (by omega)]
        rfl
  rw [jsonParse, hpv]

/-- The trailing-comma cleaner restores the strict serialization of a safe
object. -/
theorem removeTrailingCommas_serTC (fs : List (Chars × Json)) (hok : okFields fs = true) :
    removeTrailingCommas (serWithTrailingComma (Json.obj fs)) = serJson (Json.obj fs) := by
  rw [serWithTrailingComma_obj, removeTrailingCommas,
    show ('{' :: (serFields fs ++ [',', '}'])) = ('{' :: serFields fs) ++ [',', '}'] by
      rw [List.cons_append],
    removeTcAux_clean ('{' :: serFields fs) '}' (Or.inl rfl)
      (by
        rw [commaSafe_cons_ne _ _ (by decide)]
        exact serFields_commaSafe fs hok),
    show serJson (Json.obj fs) = '{' :: (serFields fs ++ ['}']) from rfl, List.cons_append]

/-- Lower-casing an upper-case code point lands on the shifted code point. -/
theorem char_ofNat_toNat_add32 (t : Nat) (h1 : 65 ≤ t) (h2 : t ≤ 90) :
    (Char.ofNat (t + 32)).toNat = t + 32 := by
  have hv : (t + 32).isValidChar := Or.inl (by omega)
  simp [Char.ofNat, hv, Char.toNat, Char.ofNatAux, UInt32.toNat, BitVec.toNat_ofNatLt]

/-- ASCII lower-casing maps no character onto a backtick. -/
theorem jsToLower_ne_backtick (c : Char) (h : c ≠ backtickCh) :
    jsToLower c ≠ backtickCh := by
  rw [jsToLower]
  split
  · next hup =>
    simp only [Bool.and_eq_true, decide_eq_true_eq] at hup
    intro he
    have h96 : (Char.ofNat (c.toNat + 32)).toNat = 96 := by rw [he]; rfl
    rw [char_ofNat_toNat_add32 c.toNat hup.1 hup.2] at h96
    omega
  · exact h

/-- A search for a pattern whose first character never occurs fails. -/
theorem findSub_none (p : Char) (ps s : Chars) (h : p ∉ s) :
    findSub (p :: ps) s = none := by
  induction s with
  | nil => simp [findSub]
  | cons c t ih =>
    have hpc : p ≠ c := fun he => h (he ▸ List.mem_cons_self c t)
    rw [findSub, listStartsWith_head_ne p c ps t hpc,
      ih fun hm => h (List.mem_cons_of_mem c hm)]
    rfl

/-- A pattern placed after a prefix free of its first character is found
exactly at the end of that prefix. -/
theorem findSub_append (p : Char) (ps a b : Chars) (h : p ∉ a) :
    findSub (p :: ps) (a ++ ((p :: ps) ++ b)) = some a.length := by
  induction a with
  | nil =>
    rw [List.nil_append, List.cons_append, findSub,
      if_pos (show listStartsWith (p :: ps) (p :: (ps ++ b)) = true from
        listStartsWith_prefix (p :: ps) b)]
    rfl
  | cons x t ih =>
    have hpx : p ≠ x := fun he => h (he ▸ List.mem_cons_self x t)
    rw [List.cons_append, findSub, listStartsWith_head_ne p x ps _ hpx,
      ih fun hm => h (List.mem_cons_of_mem x hm)]
    rfl

/-- The first occurrence of a character after a prefix free of it. -/
theorem idxOfChar_append (c : Char) (a b : Chars) (h : c ∉ a) :
    idxOfChar c (a ++ c :: b) = some a.length := by
  induction a with
  | nil => simp [idxOfChar]
  | cons x t ih =>
    have hxc : ¬ x = c := fun he => h (he ▸ List.mem_cons_self x t)
    rw [List.cons_append, idxOfChar, if_neg hxc, ih fun hm => h (List.mem_cons_of_mem x hm)]
    rfl

/-- The last occurrence of a character before a suffix free of it. -/
theorem lastIdxOfChar_append (c : Char) (a b : Chars) (h : c ∉ b) :
    lastIdxOfChar c (a ++ c :: b) = some a.length := by
  rw [lastIdxOfChar, List.reverse_append, List.reverse_cons, List.append_assoc,
    List.singleton_append,
    idxOfChar_append c b.reverse a.reverse (fun hm => h (List.mem_reverse.1 hm))]
  simp only [Option.map_some', List.length_reverse, List.length_append, List.length_cons,
    Option.some.injEq]
  omega

/-- `trim` is the identity on a serialized object body. -/
theorem jsTrim_obj (inner : Chars) :
    jsTrim ('{' :: (inner ++ ['}'])) = '{' :: (inner ++ ['}']) := by
  have hrev : ('{' :: (inner ++ ['}'])).reverse = '}' :: (inner.reverse ++ ['{']) := by
    rw [List.reverse_cons, List.reverse_append]
    rfl
  rw [jsTrim, List.dropWhile_cons, if_neg (by decide), dropEndWhile, hrev,
    List.dropWhile_cons, if_neg (by decide), ← hrev, List.reverse_reverse]

/-- `trim` strips exactly the two wrapping newlines around a serialized
object. -/
theorem jsTrim_nl_obj (inner : Chars) :
    jsTrim ('\n' :: (('{' :: (inner ++ ['}'])) ++ ['\n'])) = '{' :: (inner ++ ['}']) := by
  rw [jsTrim, List.dropWhile_cons, if_pos (by decide), List.cons_append,
    List.dropWhile_cons, if_neg (by decide), dropEndWhile,
    show ('{' :: ((inner ++ ['}']) ++ ['\n'])).reverse
      = '\n' :: '}' :: (inner.reverse ++ ['{']) by simp,
    List.dropWhile_cons, if_pos (by decide), List.dropWhile_cons, if_neg (by decide),
    show ('}' :: (inner.reverse ++ ['{'])).reverse = '{' :: (inner ++ ['}']) by simp]

/-- Without a backtick (after lower-casing) there is no fenced block. -/
theorem fencedGroup_none (s : Chars) (h : ∀ c ∈ s, jsToLower c ≠ backtickCh) :
    fencedGroup s = none := by
  have hmem : backtickCh ∉ List.map jsToLower s := by
    intro hm
    obtain ⟨c, hc, he⟩ := List.mem_map.1 hm
    exact h c hc he
  rw [fencedGroup, findSubCI, show fenceOpen = backtickCh :: "``json".data from rfl,
    findSub_none _ _ _ hmem]

/-- Without a fenced block, extraction is the brace slice. -/
theorem extract_of_fencedGroup_none (input : Chars) (hfg : fencedGroup input = none) :
    extractJsonFromText input = braceSlice input := by
  rw [extractJsonFromText, hfg]

/-- The brace slice of prose-wrapped braced text is exactly the braced text,
when the prose before contains no opening brace and the prose after no
closing brace. -/
theorem braceSlice_embed (pre inner post : Chars) (hpre : '{' ∉ pre) (hpost : '}' ∉ post) :
    braceSlice ((pre ++ ('{' :: (inner ++ ['}']))) ++ post)
      = some ('{' :: (inner ++ ['}'])) := by
  have hidx : idxOfChar '{' ((pre ++ ('{' :: (inner ++ ['}']))) ++ post)
      = some pre.length := by
    rw [List.append_assoc, List.cons_append]
    exact idxOfChar_append '{' pre _ hpre
  have hshape : (pre ++ ('{' :: (inner ++ ['}']))) ++ post
      = (pre ++ '{' :: inner) ++ '}' :: post := by
    simp
  have hlast : lastIdxOfChar '}' ((pre ++ ('{' :: (inner ++ ['}']))) ++ post)
      = some (pre.length + (inner.length + 1)) := by
    rw [hshape, lastIdxOfChar_append '}' _ post hpost]
    simp
  rw [braceSlice, hidx, hlast]
  dsimp only
  rw [if_pos (by omega)]
  rw [List.append_assoc, List.drop_left,
    show pre.length + (inner.length + 1) + 1 - pre.length
      = ('{' :: (inner ++ ['}'])).length by simp; omega,
    List.take_left]

/-- Every character of a serialized safe object, with or without the
inserted trailing comma, lies in the serializer alphabet. -/
theorem serTC_alphabet (fs : List (Chars × Json)) (hok : okFields fs = true) :
    ∀ c ∈ serWithTrailingComma (Json.obj fs), serAlphabetOk c = true := by
  rw [serWithTrailingComma_obj]
  intro c hc
  rcases List.mem_cons.1 hc with rfl | hm
  · decide
  · rcases List.mem_append.1 hm with hs | hq
    · exact serFields_alphabet fs hok c hs
    · rcases List.mem_cons.1 hq with rfl | hq2
      · decide
      · rcases List.mem_cons.1 hq2 with rfl | h3
        · decide
        · exact absurd h3 (List.not_mem_nil c)

/-- The strict parse inverts the serializer on safe values. -/
theorem jsonParse_ser (v : Json) (hok : okJson v = true) :
    jsonParse (serJson v) = some v := by
  have hpv : parseJsonVal ((serJson v).length + 1) (serJson v) = some (v, []) := by
    have h := rtVal v ((serJson v).length + 1) [] hok (by omega) (by rfl)
    rwa [List.append_nil] at h
  rw [jsonParse, hpv]
  rfl

/-- Variant (a): the raw serialization of a safe object parses leniently to
the object itself (fence regex finds nothing; the brace slice is the whole
string; the strict parse succeeds). -/
theorem parseJsonLenient_ser (fs : List (Chars × Json)) (hok : okFields fs = true) :
    parseJsonLenient (serJson (Json.obj fs)) = some (Json.obj fs) := by
  have halpha : ∀ c ∈ serJson (Json.obj fs), serAlphabetOk c = true :=
    serJson_alphabet _ hok
  have hfg : fencedGroup (serJson (Json.obj fs)) = none :=
    fencedGroup_none _ fun c hc =>
      jsToLower_ne_backtick c (serAlphabetOk_ne_backtick c (halpha c hc))
  have hbs : braceSlice (serJson (Json.obj fs)) = some (serJson (Json.obj fs)) := by
    have h := braceSlice_embed [] (serFields fs) [] (List.not_mem_nil _) (List.not_mem_nil _)
    rwa [List.nil_append, List.append_nil] at h
  rw [parseJsonLenient, extract_of_fencedGroup_none _ hfg, hbs, Option.getD_some,
    jsonParse_ser (Json.obj fs) hok]

/-- The fence regex captures exactly the serialized object out of a fenced
code block. -/
theorem fencedGroup_fenceWrap (fs : List (Chars × Json)) (hok : okFields fs = true) :
    fencedGroup (fenceWrap (serJson (Json.obj fs))) = some (serJson (Json.obj fs)) := by
  have halpha : ∀ c ∈ serJson (Json.obj fs), serAlphabetOk c = true :=
    serJson_alphabet _ hok
  have hbt : backtickCh ∉ '\n' :: (serJson (Json.obj fs) ++ ['\n']) := by
    intro hm
    rcases List.mem_cons.1 hm with he | hm2
    · exact absurd he.symm (by decide)
    · rcases List.mem_append.1 hm2 with hs | hq
      · exact absurd rfl (serAlphabetOk_ne_backtick _ (halpha _ hs))
      · rcases List.mem_singleton.1 hq with he
        exact absurd he.symm (by decide)
  have hmap : List.map jsToLower (fenceWrap (serJson (Json.obj fs)))
      = (backtickCh :: "``json".data)
        ++ ('\n' :: (List.map jsToLower (serJson (Json.obj fs)) ++ ('\n' :: fenceTicks))) := by
    rw [fenceWrap, List.map_append, List.map_append,
      show List.map jsToLower "```json\n".data
        = (backtickCh :: "``json".data) ++ ['\n'] from rfl,
      show List.map jsToLower "\n```".data = '\n' :: fenceTicks from rfl]
    simp
  have hfind : findSubCI fenceOpen (fenceWrap (serJson (Json.obj fs))) = some 0 := by
    have h := findSub_append backtickCh "``json".data []
      ('\n' :: (List.map jsToLower (serJson (Json.obj fs)) ++ ('\n' :: fenceTicks)))
      (List.not_mem_nil _)
    rw [List.nil_append] at h
    rw [findSubCI, hmap, show fenceOpen = backtickCh :: "``json".data from rfl]
    exact h
  have hdrop : (fenceWrap (serJson (Json.obj fs))).drop 7
      = '\n' :: (serJson (Json.obj fs) ++ ('\n' :: fenceTicks)) := by
    rw [fenceWrap, List.append_assoc,
      List.drop_append_of_le_length (by decide : 7 ≤ ("```json\n".data).length),
      show ("```json\n".data).drop 7 = ['\n'] from rfl, List.singleton_append,
      show "\n```".data = '\n' :: fenceTicks from rfl]
  have hfT : findSub fenceTicks ('\n' :: (serJson (Json.obj fs) ++ ('\n' :: fenceTicks)))
      = some ((serJson (Json.obj fs)).length + 2) := by
    have h := findSub_append backtickCh "``".data
      ('\n' :: (serJson (Json.obj fs) ++ ['\n'])) [] hbt
    rw [List.append_nil, List.cons_append, List.append_assoc, List.singleton_append,
      ← show fenceTicks = backtickCh :: "``".data from rfl,
      show ('\n' :: (serJson (Json.obj fs) ++ ['\n'])).length
        = (serJson (Json.obj fs)).length + 2 by simp] at h
    exact h
  have htake : ('\n' :: (serJson (Json.obj fs) ++ ('\n' :: fenceTicks))).take
      ((serJson (Json.obj fs)).length + 2)
      = '\n' :: (serJson (Json.obj fs) ++ ['\n']) := by
    rw [show (serJson (Json.obj fs)).length + 2 = ((serJson (Json.obj fs)).length + 1) + 1
        from rfl, List.take_succ_cons,
      show (serJson (Json.obj fs)).length + 1 = (serJson (Json.obj fs)).length + 1
        from rfl, List.take_append 1]
    rfl
  rw [fencedGroup, hfind]
  dsimp only
  rw [hdrop, hfT]
  dsimp only
  rw [htake,
    show serJson (Json.obj fs) = '{' :: (serFields fs ++ ['}']) from rfl]
  rw [show ('\n' :: (('{' :: (serFields fs ++ ['}'])) ++ ['\n']))
      = '\n' :: (('{' :: (serFields fs ++ ['}'])) ++ ['\n']) from rfl, jsTrim_nl_obj]

/-- Variant (b): a safe object in a fenced code block parses leniently to
the object itself. -/
theorem parseJsonLenient_fenced (fs : List (Chars × Json)) (hok : okFields fs = true) :
    parseJsonLenient (fenceWrap (serJson (Json.obj fs))) = some (Json.obj fs) := by
  have hne : ¬ serJson (Json.obj fs) = [] := by
    rw [show serJson (Json.obj fs) = '{' :: (serFields fs ++ ['}']) from rfl]
    exact List.cons_ne_nil _ _
  have hex : extractJsonFromText (fenceWrap (serJson (Json.obj fs)))
      = some (serJson (Json.obj fs)) := by
    rw [extractJsonFromText, fencedGroup_fenceWrap fs hok]
    dsimp only
    rw [if_neg hne,
      show serJson (Json.obj fs) = '{' :: (serFields fs ++ ['}']) from rfl, jsTrim_obj]
  rw [parseJsonLenient, hex, Option.getD_some, jsonParse_ser (Json.obj fs) hok]

/-- Variant (c): a safe object surrounded by prose (no brace of the right
kind and no backtick in the prose) parses leniently to the object itself. -/
theorem parseJsonLenient_embedded (fs : List (Chars × Json)) (pre post : Chars)
    (hok : okFields fs = true) (hpre1 : '{' ∉ pre) (hpre2 : backtickCh ∉ pre)
    (hpost1 : '}' ∉ post) (hpost2 : backtickCh ∉ post) :
    parseJsonLenient (pre ++ serJson (Json.obj fs) ++ post) = some (Json.obj fs) := by
  have halpha : ∀ c ∈ serJson (Json.obj fs), serAlphabetOk c = true :=
    serJson_alphabet _ hok
  have hfg : fencedGroup (pre ++ serJson (Json.obj fs) ++ post) = none := by
    refine fencedGroup_none _ fun c hc => jsToLower_ne_backtick c ?_
    rcases List.mem_append.1 hc with hm | hpost
    · rcases List.mem_append.1 hm with hp | hs
      · exact fun he => hpre2 (he ▸ hp)
      · exact serAlphabetOk_ne_backtick c (halpha c hs)
    · exact fun he => hpost2 (he ▸ hpost)
  have hbs : braceSlice (pre ++ serJson (Json.obj fs) ++ post)
      = some (serJson (Json.obj fs)) := by
    rw [show serJson (Json.obj fs) = '{' :: (serFields fs ++ ['}']) from rfl]
    exact braceSlice_embed pre (serFields fs) post hpre1 hpost1
  rw [parseJsonLenient, extract_of_fencedGroup_none _ hfg, hbs, Option.getD_some,
    jsonParse_ser (Json.obj fs) hok]

/-- Variant (d): a safe object serialized with one trailing comma still
parses leniently to the object itself: the strict parse throws, the
trailing-comma regex repairs the text, and the retry succeeds. -/
theorem parseJsonLenient_serTC (fs : List (Chars × Json)) (hok : okFields fs = true) :
    parseJsonLenient (serWithTrailingComma (Json.obj fs)) = some (Json.obj fs) := by
  have halpha := serTC_alphabet fs hok
  have hfg : fencedGroup (serWithTrailingComma (Json.obj fs)) = none :=
    fencedGroup_none _ fun c hc =>
      jsToLower_ne_backtick c (serAlphabetOk_ne_backtick c (halpha c hc))
  have hbs : braceSlice (serWithTrailingComma (Json.obj fs))
      = some (serWithTrailingComma (Json.obj fs)) := by
    rw [serWithTrailingComma_obj,
      show serFields fs ++ [',', '}'] = (serFields fs ++ [',']) ++ ['}'] by simp]
    have h := braceSlice_embed [] (serFields fs ++ [',']) []
      (List.not_mem_nil _) (List.not_mem_nil _)
    rwa [List.nil_append, List.append_nil] at h
  rw [parseJsonLenient, extract_of_fencedGroup_none _ hfg, hbs, Option.getD_some,
    jsonParse_serTC fs hok, removeTrailingCommas_serTC fs hok, jsonParse_ser (Json.obj fs) hok]

/-- Claim C4 (amended): for every JSON object value over the safe alphabet
(keys and string values drawn from ASCII letters, digits and spaces),
`parseJsonLenient` recovers the object from (a) the raw serialization,
(b) the serialization wrapped in a fenced code block, (c) the serialization
surrounded by prose containing no opening brace and no backtick before it
and no closing brace and no backtick after it, and (d) the serialization
with a trailing comma inserted before the closing brace.  (Without the
restrictions the original claim fails: see the counterexample, where a
string value containing a fenced block hijacks extraction.) -/
theorem c4_lenient_roundtrip (v : Json) (hobj : isObjTop v = true)
    (hok : okJson v = true) :
    parseJsonLenient (serJson v) = some v
    ∧ parseJsonLenient (fenceWrap (serJson v)) = some v
    ∧ (∀ pre post : Chars, '{' ∉ pre → backtickCh ∉ pre → '}' ∉ post →
        backtickCh ∉ post → parseJsonLenient (pre ++ serJson v ++ post) = some v)
    ∧ parseJsonLenient (serWithTrailingComma v) = some v := by
  cases v with
  | obj fs =>
    exact ⟨parseJsonLenient_ser fs hok, parseJsonLenient_fenced fs hok,
      fun pre post h1 h2 h3 h4 => parseJsonLenient_embedded fs pre post hok h1 h2 h3 h4,
      parseJsonLenient_serTC fs hok⟩
  | null => exact Bool.noConfusion hobj
  | bool b => exact Bool.noConfusion hobj
  | num i => exact Bool.noConfusion hobj
  | str t => exact Bool.noConfusion hobj
  | arr xs => exact Bool.noConfusion hobj

/-- Claim C4, witness: a concrete safe object is recovered from all four
variants, with concrete prose for variant (c). -/
theorem c4_lenient_roundtrip_witness :
    isObjTop vO = true ∧ okJson vO = true
    ∧ parseJsonLenient (serJson vO) = some vO
    ∧ parseJsonLenient (fenceWrap (serJson vO)) = some vO
    ∧ parseJsonLenient ("Answer: ".data ++ serJson vO ++ " Done.".data) = some vO
    ∧ parseJsonLenient (serWithTrailingComma vO) = some vO := by
  have h := c4_lenient_roundtrip vO rfl rfl
  exact ⟨rfl, rfl, h.1, h.2.1,
    h.2.2.1 "Answer: ".data " Done.".data (by decide) (by decide) (by decide) (by decide),
    h.2.2.2⟩

/-- Claim C4, counterexample to the unrestricted claim: an object whose
string value itself contains a fenced `json` block is an ordinary JSON
object, yet the lenient parse of its raw serialization extracts the content
of the embedded fence and returns a different value. -/
theorem c4_counterexample :
    isObjTop vBad = true
    ∧ parseJsonLenient (serJson vBad) = some (Json.num 1)
    ∧ parseJsonLenient (serJson vBad) ≠ some vBad := by
  refine ⟨rfl, rfl, ?_⟩
  intro he
  have h1 : parseJsonLenient (serJson vBad) = some (Json.num 1) := rfl
  rw [h1] at he
  exact Json.noConfusion (Option.some.inj he)

end GN
